import Mathlib

/-!
# Verification of the polars-parquet nested level computation and hybrid encoder

Shallow embedding of:
  * `crates/polars-parquet/src/arrow/write/pages.rs` (descriptor model, `to_levels`)
  * `crates/polars-parquet/src/arrow/write/nested/def.rs` (`calculate_def_levels`)
  * `crates/polars-parquet/src/arrow/write/nested/rep.rs` (`calculate_rep_levels`, `num_values`)
  * `crates/polars-parquet/src/parquet/encoding/hybrid_rle/encoder.rs` (`encode_u32`, `encode_bool`)
  * `crates/polars-parquet/src/parquet/encoding/bitpacked/pack.rs` (`pack8`..`pack64`)

Machine integers are modelled as `Nat` (all the arithmetic in these files stays far
below the `u32`/`usize` ranges except where noted, and truncating operations carry an
explicit `% 2 ^ w`).  Fallible Rust functions returning `PolarsResult`/`io::Result`
are modelled with `Except String`.
-/

namespace PolarsParquet

/-- Decidable equality for `Except` values via a boolean comparison (needed so that
concrete runs of the fallible functions can be settled by `decide`). -/
def exceptBeq {ε α : Type} [DecidableEq ε] [DecidableEq α] : Except ε α → Except ε α → Bool
  | .ok a, .ok b => decide (a = b)
  | .error a, .error b => decide (a = b)
  | _, _ => false

instance {ε α : Type} [DecidableEq ε] [DecidableEq α] : DecidableEq (Except ε α) := fun a b =>
  decidable_of_iff (exceptBeq a b = true) (by
    cases a <;> cases b <;> simp [exceptBeq])

/-! ## Bitmap and offset-buffer primitives

`Bitmap` and `OffsetsBuffer` come from the polars-arrow crate, which is outside the
given sources.  Modelled from the spec: a validity bitmap is a finite bit sequence and
`slice(offset, length)` restricts it to the given window (clamped when the window runs
past the end, which is where the "validity iterator exhausted early" behaviour of the
level computation comes from); offsets are a monotone sequence of `usize` values and
`start_end(i)` returns the pair `(offsets[i], offsets[i+1])`. -/

/-- `Bitmap.slice(offset, length)` followed by `.iter()`: the window of the bit
sequence starting at `offset` of size at most `length`. -/
def bslice (bm : List Bool) (offset length : Nat) : List Bool :=
  (bm.drop offset).take length

/-- `OffsetsBuffer.slice(offset, length)`: window of the offsets sequence. -/
def oslice (offsets : List Nat) (offset length : Nat) : List Nat :=
  (offsets.drop offset).take length

/-- The `ListNested<O>` struct of `pages.rs` (the `i32`/`i64` offset types are both
modelled as `Nat`; the code only ever uses offsets `as usize`). -/
structure ListNested where
  is_optional : Bool
  offsets : List Nat
  validity : Option (List Bool)
deriving DecidableEq, Repr

/-- The `Nested` descriptor enum of `pages.rs`. -/
inductive Nested where
  /-- a primitive: validity, is_optional, length -/
  | primitive (validity : Option (List Bool)) (is_optional : Bool) (length : Nat)
  /-- a list -/
  | list (n : ListNested)
  /-- a large list -/
  | largeList (n : ListNested)
  /-- a fixed size list: validity, is_optional, width, len -/
  | fixedSizeList (validity : Option (List Bool)) (is_optional : Bool) (width len : Nat)
  /-- a struct: validity, is_optional, length -/
  | struct (validity : Option (List Bool)) (is_optional : Bool) (len : Nat)
deriving DecidableEq, Repr

/-- `Nested::len` of `pages.rs` (`len_proxy` of an offsets buffer is its length
minus one). -/
def Nested.len : Nested → Nat
  | .primitive _ _ l => l
  | .list n => n.offsets.length - 1
  | .largeList n => n.offsets.length - 1
  | .fixedSizeList _ _ _ l => l
  | .struct _ _ l => l

/-! ## Definition levels (`nested/def.rs`) -/

/-- The `Nested::List`/`Nested::LargeList` arm of `def_levels_recursive` (the two
arms are textually identical in the source); `recur` is the recursive call on
`&nested[1..]`. -/
def def_levels_list (recur : Nat → Nat → Nat → List Nat) (ln : ListNested)
    (current_level offset length : Nat) : List Nat :=
  let sliced_offsets := oslice ln.offsets offset (length + 1)
  -- Inner values are already sliced so subtract first offset (taken before slicing)
  let first_offset := ln.offsets.headD 0
  -- Fields inside lists get extra +1 if defined
  let next_level := current_level + ln.is_optional.toNat + 1
  match ln.validity with
  | some bitmap =>
      (bslice bitmap offset length).enum.flatMap (fun p =>
        if p.2 then
          let s := sliced_offsets.getD p.1 0
          let e := sliced_offsets.getD (p.1 + 1) 0
          if e - s = 0 then [next_level - 1]
          else recur next_level (s - first_offset) (e - s)
        else [current_level])
  | none =>
      (List.range length).flatMap (fun i =>
        let s := sliced_offsets.getD i 0
        let e := sliced_offsets.getD (i + 1) 0
        if e - s = 0 then [next_level - 1]
        else recur next_level (s - first_offset) (e - s))

/-- `def_levels_recursive` of `nested/def.rs`.  The `def_levels` output vector is
returned instead of mutated; the function itself never fails (its `PolarsResult`
is always `Ok`), so it is modelled as a pure function.  An empty `nested` slice
(which would index out of bounds in Rust and cannot occur on a path ending in a
`Primitive`) yields `[]`. -/
def def_levels_recursive : List Nested → Nat → Nat → Nat → List Nat
  | [], _, _, _ => []
  | node :: rest, current_level, offset, length =>
    match node with
    | .primitive validity is_optional _ =>
      match validity with
      | some bitmap =>
          (((bslice bitmap offset length).map
            (fun is_valid => current_level + is_valid.toNat)).take length)
      | none => List.replicate length (current_level + is_optional.toNat)
    | .list ln =>
        def_levels_list (fun a b c => def_levels_recursive rest a b c) ln
          current_level offset length
    | .largeList ln =>
        def_levels_list (fun a b c => def_levels_recursive rest a b c) ln
          current_level offset length
    | .struct validity is_optional _ =>
      let next_level := current_level + is_optional.toNat
      match validity with
      | some bitmap =>
          (bslice bitmap offset length).enum.flatMap (fun p =>
            if p.2 then def_levels_recursive rest next_level (offset + p.1) 1
            else [current_level])
      | none =>
          (List.range length).flatMap (fun i =>
            def_levels_recursive rest next_level (offset + i) 1)
    | .fixedSizeList validity is_optional width _ =>
      -- Fields inside lists get extra +1 if defined
      let next_level := current_level + is_optional.toNat + 1
      match validity with
      | some bitmap =>
          (bslice bitmap offset length).enum.flatMap (fun p =>
            if p.2 then def_levels_recursive rest next_level (width * p.1) width
            else [current_level])
      | none =>
          (List.range length).flatMap (fun i =>
            def_levels_recursive rest next_level (width * i) width)

/-- `calculate_def_levels` of `nested/def.rs`.  The `value_count` argument of the
source is only used to pre-allocate the output vector and is omitted. -/
def calculate_def_levels (nested : List Nested) : Except String (List Nat) :=
  match nested with
  | [] => pure []
  | n :: _ => pure (def_levels_recursive nested 0 0 n.len)

/-! ## Repetition levels (`nested/rep.rs`) -/

/-- Sequential effectful map over `Except` (the model of a Rust `for` loop with `?`
inside: apply `f` left to right, stopping at the first error). -/
def mapE {α β : Type} : List α → (α → Except String β) → Except String (List β)
  | [], _ => pure []
  | a :: as, f => do
      let hd ← f a
      let tl ← mapE as f
      pure (hd :: tl)

/-- The error message of `polars_bail!` in `rep.rs` and `pages.rs`. -/
def validityErr : String := "Validity bitmap should not be empty"

/-- The `Nested::List`/`Nested::LargeList` arm of `rep_levels_recursive` (textually
identical in the source). -/
def rep_levels_list (recur : Nat → Nat → Nat → Nat → Except String (List Nat))
    (ln : ListNested) (current_level parent_level offset length : Nat) :
    Except String (List Nat) :=
  let sliced_offsets := oslice ln.offsets offset (length + 1)
  -- Inner values are already sliced so subtract first offset
  let first_offset := ln.offsets.headD 0
  let next_level := current_level + ln.is_optional.toNat
  match ln.validity with
  | some bitmap =>
    match bslice bitmap offset length with
    | [] => .error validityErr
    | b :: bs => do
        -- First element inherits parent level
        let hd ← if b then
            let s := sliced_offsets.getD 0 0
            let e := sliced_offsets.getD 1 0
            recur next_level parent_level (s - first_offset) (e - s)
          else pure [parent_level]
        -- Subsequent elements take current level as parent level
        let tl ← mapE bs.enum (fun p =>
          if p.2 then
            let s := sliced_offsets.getD (p.1 + 1) 0
            let e := sliced_offsets.getD (p.1 + 2) 0
            recur next_level current_level (s - first_offset) (e - s)
          else pure [current_level])
        pure (hd ++ tl.flatten)
  | none => do
      let s0 := sliced_offsets.getD 0 0
      let e0 := sliced_offsets.getD 1 0
      let hd ← recur next_level parent_level (s0 - first_offset) (e0 - s0)
      let tl ← mapE (List.range' 1 (length - 1)) (fun i =>
          let s := sliced_offsets.getD i 0
          let e := sliced_offsets.getD (i + 1) 0
          recur next_level current_level (s - first_offset) (e - s))
      pure (hd ++ tl.flatten)

/-- `rep_levels_recursive` of `nested/rep.rs`. -/
def rep_levels_recursive : List Nested → Nat → Nat → Nat → Nat → Except String (List Nat)
  | [], _, parent_level, _, length =>
      -- the `length == 0` early return precedes the `nested[0]` access
      if length = 0 then pure [parent_level] else pure []
  | node :: rest, current_level, parent_level, offset, length =>
    if length = 0 then pure [parent_level] else
    match node with
    | .primitive _ _ _ =>
        pure (parent_level :: List.replicate (length - 1) current_level)
    | .list ln =>
        rep_levels_list (fun a b c d => rep_levels_recursive rest a b c d) ln
          current_level parent_level offset length
    | .largeList ln =>
        rep_levels_list (fun a b c d => rep_levels_recursive rest a b c d) ln
          current_level parent_level offset length
    | .struct validity _ _ =>
      match validity with
      | some bitmap =>
        match bslice bitmap offset length with
        | [] => pure [parent_level]
        | b :: bs => do
            -- First element inherits parent level
            let hd ← if b then rep_levels_recursive rest current_level parent_level offset 1
              else pure [parent_level]
            -- Subsequent elements take current level as parent level
            let tl ← mapE bs.enum (fun p =>
              if p.2 then
                rep_levels_recursive rest current_level current_level (offset + p.1 + 1) 1
              else pure [current_level])
            pure (hd ++ tl.flatten)
      | none => do
          let hd ← rep_levels_recursive rest current_level parent_level offset 1
          let tl ← if length > 1 then
              rep_levels_recursive rest current_level current_level (offset + 1) (length - 1)
            else pure []
          pure (hd ++ tl)
    | .fixedSizeList validity is_optional width _ =>
      let next_level := current_level + is_optional.toNat
      match validity with
      | some bitmap =>
        match bslice bitmap offset length with
        | [] => .error validityErr
        | b :: bs => do
            -- First element has repetition level = parent level
            let hd ← if b then rep_levels_recursive rest next_level parent_level 0 width
              else pure [parent_level]
            -- Subsequent elements have repetition level = current level
            let tl ← mapE bs.enum (fun p =>
              if p.2 then
                rep_levels_recursive rest next_level current_level (width * (p.1 + 1)) width
              else pure [current_level])
            pure (hd ++ tl.flatten)
      | none => do
          let hd ← rep_levels_recursive rest next_level parent_level 0 width
          let tl ← mapE (List.range' 1 (length - 1)) (fun i =>
              rep_levels_recursive rest next_level current_level (width * i) width)
          pure (hd ++ tl.flatten)

/-- `calculate_rep_levels` of `nested/rep.rs` (the `value_count` capacity argument is
omitted). -/
def calculate_rep_levels (nested : List Nested) : Except String (List Nat) :=
  match nested with
  | [] => pure []
  | n :: _ => rep_levels_recursive nested 0 0 0 n.len

/-- `to_length` over an offsets buffer (from `nested/mod.rs`, outside the given
sources).  Modelled from the spec: the sequence of inner run lengths
`offsets[i+1] - offsets[i]`. -/
def to_length (offsets : List Nat) : List Nat :=
  (List.range (offsets.length - 1)).map (fun i => offsets.getD (i + 1) 0 - offsets.getD i 0)

/-- `num_values` of `nested/rep.rs`: leaf primitive length plus, for every
list-like node, the count of zero-length inner runs.  (For a `FixedSizeList` the
run-length iterator is `repeat(width).take(len)`.)  A path not ending in a
`Primitive` hits `unreachable!` in Rust; modelled as contributing `0`. -/
def num_values (nested : List Nested) : Nat :=
  let pr := match nested.getLast? with
    | some (.primitive _ _ len) => len
    | _ => 0
  (nested.map (fun n =>
    match n with
    | .list ln => ((to_length ln.offsets).filter (fun l => l = 0)).length
    | .largeList ln => ((to_length ln.offsets).filter (fun l => l = 0)).length
    | .fixedSizeList _ _ width len => if width = 0 then len else 0
    | _ => 0)).sum + pr

/-! ## Combined single pass (`pages.rs`) -/

/-- Concatenate the head pair with the per-position pairs, componentwise. -/
def combine2 (hd : List Nat × List Nat) (tl : List (List Nat × List Nat)) :
    List Nat × List Nat :=
  (hd.1 ++ (tl.map Prod.fst).flatten, hd.2 ++ (tl.map Prod.snd).flatten)

/-- The `Nested::List`/`Nested::LargeList` arm of `to_levels_recursive` (textually
identical in the source).  Note three deviations of the source from `def.rs`/`rep.rs`,
all modelled faithfully: the validity branch iterates the full *unsliced* bitmap, the
subsequent elements use `start_end(i)` (not `i + 1`), and the recursion passes `start`
without subtracting the first offset. -/
def to_levels_list (recur : Nat → Nat → Nat → Nat → Nat → Except String (List Nat × List Nat))
    (ln : ListNested) (current_level parent_level validity_bonus offset length : Nat) :
    Except String (List Nat × List Nat) :=
  if length = 0 then pure ([parent_level + validity_bonus], [parent_level])
  else
    let sliced_offsets := oslice ln.offsets offset (length + 1)
    let next_level := current_level + ln.is_optional.toNat
    -- List fields get auto +1 def level
    let next_validity_bonus := validity_bonus + 1
    match ln.validity with
    | some bitmap =>
      match bitmap with
      | [] => .error validityErr
      | b :: bs => do
          -- First element has repetition level = parent level
          let hd ← if b then
              let s := sliced_offsets.getD 0 0
              let e := sliced_offsets.getD 1 0
              recur next_level parent_level next_validity_bonus s (e - s)
            else pure ([parent_level + validity_bonus], [parent_level])
          -- Subsequent elements have repetition level = current level
          let tl ← mapE bs.enum (fun p =>
            if p.2 then
              let s := sliced_offsets.getD p.1 0
              let e := sliced_offsets.getD (p.1 + 1) 0
              recur next_level current_level next_validity_bonus s (e - s)
            else pure ([parent_level + validity_bonus], [current_level]))
          pure (combine2 hd tl)
    | none => do
        let s0 := sliced_offsets.getD 0 0
        let e0 := sliced_offsets.getD 1 0
        let hd ← recur next_level parent_level next_validity_bonus s0 (e0 - s0)
        let tl ← mapE (List.range' 1 (length - 1)) (fun i =>
            let s := sliced_offsets.getD i 0
            let e := sliced_offsets.getD (i + 1) 0
            recur next_level current_level next_validity_bonus s (e - s))
        pure (combine2 hd tl)

/-- `to_levels_recursive` of `pages.rs`: the combined single-pass computation of
definition and repetition levels. -/
def to_levels_recursive : List Nested → Nat → Nat → Nat → Nat → Nat →
    Except String (List Nat × List Nat)
  | [], _, _, _, _, _ => pure ([], [])
  | node :: rest, current_level, parent_level, validity_bonus, offset, length =>
    match node with
    | .primitive validity is_optional _ =>
      if length = 0 then pure ([parent_level + validity_bonus], [parent_level])
      else
        let d := match validity with
          | some bitmap =>
              ((bslice bitmap offset length).map
                (fun is_valid => current_level + validity_bonus + is_valid.toNat)).take
                bitmap.length
          | none => List.replicate length (current_level + is_optional.toNat + validity_bonus)
        pure (d, parent_level ::
          (if length > 1 then List.replicate (length - 1) current_level else []))
    | .list ln =>
        to_levels_list (fun a b c d e => to_levels_recursive rest a b c d e) ln
          current_level parent_level validity_bonus offset length
    | .largeList ln =>
        to_levels_list (fun a b c d e => to_levels_recursive rest a b c d e) ln
          current_level parent_level validity_bonus offset length
    | .struct validity is_optional _ =>
      if length = 0 then pure ([parent_level + validity_bonus], [parent_level])
      else
        let next_level := current_level + is_optional.toNat
        match validity with
        | some bitmap =>
          -- the source iterates the full bitmap here, without slicing to the window
          match bitmap with
          | [] => pure ([parent_level + validity_bonus], [parent_level])
          | b :: bs => do
              let hd ← if b then
                  to_levels_recursive rest next_level parent_level validity_bonus offset 1
                else pure ([parent_level + validity_bonus], [parent_level])
              let tl ← mapE bs.enum (fun p =>
                if p.2 then
                  to_levels_recursive rest next_level current_level validity_bonus
                    (offset + p.1 + 1) 1
                else pure ([parent_level + validity_bonus], [current_level]))
              pure (combine2 hd tl)
        | none => do
            let hd ← to_levels_recursive rest next_level parent_level validity_bonus offset 1
            let tl ← mapE (List.range' 1 (length - 1)) (fun i =>
                to_levels_recursive rest next_level current_level validity_bonus (offset + i) 1)
            pure (combine2 hd tl)
    | .fixedSizeList validity is_optional width _ =>
      if length = 0 then pure ([parent_level + validity_bonus], [parent_level])
      else
        let next_level := current_level + is_optional.toNat
        let next_validity_bonus := validity_bonus + 1
        match validity with
        | some bitmap =>
          match bslice bitmap offset length with
          | [] => .error validityErr
          | b :: bs => do
              let hd ← if b then
                  to_levels_recursive rest next_level parent_level next_validity_bonus 0 width
                else pure ([parent_level + validity_bonus], [parent_level])
              let tl ← mapE bs.enum (fun p =>
                if p.2 then
                  to_levels_recursive rest next_level current_level next_validity_bonus
                    (width * (p.1 + 1)) width
                else pure ([parent_level + validity_bonus], [current_level]))
              pure (combine2 hd tl)
        | none => do
            let hd ← to_levels_recursive rest next_level parent_level next_validity_bonus 0 width
            let tl ← mapE (List.range' 1 (length - 1)) (fun i =>
                to_levels_recursive rest next_level current_level next_validity_bonus
                  (i * width) width)
            pure (combine2 hd tl)

/-- `to_levels` of `pages.rs` (its `num_values` call is only used to pre-allocate). -/
def to_levels (nested : List Nested) : Except String (List Nat × List Nat) :=
  match nested with
  | [] => pure ([], [])
  | n :: _ => to_levels_recursive nested 0 0 0 0 n.len

/-! ## Hybrid RLE / bit-packed encoder (`hybrid_rle/encoder.rs`)

The writer is an in-memory byte vector, so the `io::Result` of the source can never
be an error; the functions are modelled as pure byte-list producers.  Bytes are `Nat`
values `< 256`. -/

/-- `ceil8` from `crate::parquet::encoding` (outside the given sources).  Modelled
from the spec: rounds up to the next multiple of 8, divided by 8. -/
def ceil8 (value : Nat) : Nat := (value + 7) / 8

/-- Fuel-driven worker for `uleb128_encode` (fuel `≥ value` suffices since the
value shrinks by a factor of 128 each step). -/
def uleb128_aux : Nat → Nat → List Nat
  | 0, x => [x % 128]
  | fuel + 1, x => if x < 128 then [x] else (x % 128 + 128) :: uleb128_aux fuel (x / 128)

/-- `uleb128::encode` (outside the given sources).  Modelled from the spec: standard
unsigned LEB128, low 7 bits first with a continuation bit on every byte but the
last. -/
def uleb128_encode (x : Nat) : List Nat := uleb128_aux x x

/-- The `w` low-order little-endian bytes of a value (`value.to_le_bytes()`). -/
def le_bytes : Nat → Nat → List Nat
  | 0, _ => []
  | w + 1, v => v % 256 :: le_bytes w (v / 256)

/-- `run_length_encode_u32` of `encoder.rs`: ULEB128 of `run_length << 1` followed by
`ceil8(bit_width)` little-endian bytes of the value.  (In Rust, a `bit_width`
above 32 panics when slicing the 4-byte array; the model clamps.) -/
def run_length_encode_u32 (run_length value bit_width : Nat) : List Nat :=
  uleb128_encode (run_length <<< 1) ++ (le_bytes 4 value).take (ceil8 bit_width)

/-- `bitpacked::encode_pack::<u32>` (outside the given sources).  Modelled from the
spec: packs the values at exactly `num_bits` bits each, least-significant bit first,
into `out_len` bytes (zero-padded). -/
def encode_pack (values : List Nat) (num_bits out_len : Nat) : List Nat :=
  le_bytes out_len
    ((values.enum.map (fun p => (p.2 % 2 ^ num_bits) <<< (p.1 * num_bits))).sum)

/-- `bitpacked_encode_u32` of `encoder.rs`: bit-packed literal run with ULEB128
header `(ceil8 len << 1) | 1`, 32-value chunks of `4 * num_bits` bytes and a
remainder of `ceil8(remainder) * num_bits` bytes. -/
def bitpacked_encode_u32 (values : List Nat) (num_bits : Nat) : List Nat :=
  let length := values.length
  let header := (ceil8 length) <<< 1 ||| 1
  let chunks := length / 32
  let remainder := length - chunks * 32
  uleb128_encode header ++
    (List.range chunks).flatMap (fun c =>
      encode_pack ((values.drop (c * 32)).take 32) num_bits (4 * num_bits)) ++
    (if remainder ≠ 0 then
      encode_pack (values.drop (chunks * 32)) num_bits (ceil8 remainder * num_bits)
    else [])

/-- `MAX_VALUES_PER_LITERAL_RUN` of `encoder.rs`. -/
def MAX_VALUES_PER_LITERAL_RUN : Nat := (1 <<< 10) * 8

/-- The loop state of `encode_u32`: output written so far, `consecutive_repeats`,
the first `buffer_idx` cells of `buffered_bits`, `buffer_idx`, `literal_run_idx`,
`previous_val`. -/
structure EncStateU32 where
  out : List Nat
  consecutive_repeats : Nat
  buffered_bits : List Nat
  buffer_idx : Nat
  literal_run_idx : Nat
  previous_val : Nat
deriving DecidableEq, Repr

/-- One iteration of the `for val in iterator` loop of `encode_u32`. -/
def encode_u32_step (num_bits : Nat) (st : EncStateU32) (val : Nat) : EncStateU32 :=
  -- Run is long enough to RLE, no need to buffer values (`continue`)
  if val = st.previous_val ∧ st.consecutive_repeats + 1 > 8 then
    { st with consecutive_repeats := st.consecutive_repeats + 1 }
  else
    let st :=
      if val = st.previous_val then
        -- Ensure literal run has multiple of 8 values
        if st.consecutive_repeats + 1 = 8 then
          let literal_padding := (8 - st.literal_run_idx % 8) % 8
          { st with consecutive_repeats := st.consecutive_repeats + 1 - literal_padding,
                    literal_run_idx := st.literal_run_idx + literal_padding }
        else { st with consecutive_repeats := st.consecutive_repeats + 1 }
      else if st.consecutive_repeats > 8 then
        -- Flush literal run, if any, before RLE run
        let out :=
          if st.literal_run_idx > 0 then
            st.out ++ bitpacked_encode_u32 (st.buffered_bits.take st.literal_run_idx) num_bits
          else st.out
        { st with
            out := out ++ run_length_encode_u32 st.consecutive_repeats st.previous_val num_bits,
            literal_run_idx := 0, consecutive_repeats := 1, buffer_idx := 0 }
      else
        -- Not enough consecutive repeats to RLE, extend literal run
        { st with literal_run_idx := st.buffer_idx, consecutive_repeats := 1 }
    -- If buffer is full, bit-pack as literal run and reset
    let st :=
      if st.buffer_idx = MAX_VALUES_PER_LITERAL_RUN then
        { st with
            out := st.out ++ bitpacked_encode_u32 (st.buffered_bits.take st.buffer_idx) num_bits,
            consecutive_repeats := st.consecutive_repeats - (st.buffer_idx - st.literal_run_idx),
            buffer_idx := 0, literal_run_idx := 0 }
      else st
    { st with buffered_bits := st.buffered_bits.take st.buffer_idx ++ [val],
              previous_val := val, buffer_idx := st.buffer_idx + 1 }

/-- `encode_u32` of `encoder.rs`. -/
def encode_u32 (values : List Nat) (num_bits : Nat) : List Nat :=
  let st := values.foldl (encode_u32_step num_bits) ⟨[], 0, [], 0, 0, 0⟩
  -- Not enough consecutive repeats to RLE, extend literal run
  let (lr, cr) :=
    if st.consecutive_repeats ≤ 8 then (st.buffer_idx, 0)
    else (st.literal_run_idx, st.consecutive_repeats)
  let out :=
    if lr > 0 then st.out ++ bitpacked_encode_u32 (st.buffered_bits.take lr) num_bits
    else st.out
  if cr > 8 then out ++ run_length_encode_u32 cr st.previous_val num_bits else out

/-- `bitmap::encode` used by `bitpacked_encode_bool` (outside the given sources).
Modelled from the spec: packs booleans into `ceil8(len)` bytes, least-significant
bit first. -/
def bitpacked_encode (bits : List Bool) : List Nat :=
  (List.range (ceil8 bits.length)).map (fun k =>
    ((List.range 8).map (fun j => (bits.getD (8 * k + j) false).toNat <<< j)).sum)

/-- `bitpacked_encode_bool` of `encoder.rs`: ULEB128 header `(ceil8 len << 1) | 1`
followed by the packed bytes. -/
def bitpacked_encode_bool (bits : List Bool) : List Nat :=
  uleb128_encode ((ceil8 bits.length) <<< 1 ||| 1) ++ bitpacked_encode bits

/-- `run_length_encode_bool` of `encoder.rs`. -/
def run_length_encode_bool (run_length : Nat) (value : Bool) : List Nat :=
  uleb128_encode (run_length <<< 1) ++ [value.toNat]

/-- The loop state of `encode_bool` (same shape as `EncStateU32` with a boolean
buffer). -/
structure EncStateBool where
  out : List Nat
  consecutive_repeats : Nat
  buffered_bits : List Bool
  buffer_idx : Nat
  literal_run_idx : Nat
  previous_val : Bool
deriving DecidableEq, Repr

/-- One iteration of the `for bit in iterator` loop of `encode_bool`. -/
def encode_bool_step (st : EncStateBool) (bit : Bool) : EncStateBool :=
  if bit = st.previous_val ∧ st.consecutive_repeats + 1 > 8 then
    { st with consecutive_repeats := st.consecutive_repeats + 1 }
  else
    let st :=
      if bit = st.previous_val then
        if st.consecutive_repeats + 1 = 8 then
          let literal_padding := (8 - st.literal_run_idx % 8) % 8
          { st with consecutive_repeats := st.consecutive_repeats + 1 - literal_padding,
                    literal_run_idx := st.literal_run_idx + literal_padding }
        else { st with consecutive_repeats := st.consecutive_repeats + 1 }
      else if st.consecutive_repeats > 8 then
        let out :=
          if st.literal_run_idx > 0 then
            st.out ++ bitpacked_encode_bool (st.buffered_bits.take st.literal_run_idx)
          else st.out
        { st with
            out := out ++ run_length_encode_bool st.consecutive_repeats st.previous_val,
            literal_run_idx := 0, consecutive_repeats := 1, buffer_idx := 0 }
      else
        { st with literal_run_idx := st.buffer_idx, consecutive_repeats := 1 }
    let st :=
      if st.buffer_idx = MAX_VALUES_PER_LITERAL_RUN then
        { st with
            out := st.out ++ bitpacked_encode_bool (st.buffered_bits.take st.buffer_idx),
            consecutive_repeats := st.consecutive_repeats - (st.buffer_idx - st.literal_run_idx),
            buffer_idx := 0, literal_run_idx := 0 }
      else st
    { st with buffered_bits := st.buffered_bits.take st.buffer_idx ++ [bit],
              previous_val := bit, buffer_idx := st.buffer_idx + 1 }

/-- `encode_bool` of `encoder.rs`. -/
def encode_bool (bits : List Bool) : List Nat :=
  let st := bits.foldl encode_bool_step ⟨[], 0, [], 0, 0, false⟩
  let (lr, cr) :=
    if st.consecutive_repeats ≤ 8 then (st.buffer_idx, 0)
    else (st.literal_run_idx, st.consecutive_repeats)
  let out :=
    if lr > 0 then st.out ++ bitpacked_encode_bool (st.buffered_bits.take lr)
    else st.out
  if cr > 8 then out ++ run_length_encode_bool cr st.previous_val else out

/-! ## Fixed-width packing kernels (`bitpacked/pack.rs`)

The four kernels `pack8`/`pack16`/`pack32`/`pack64` are generated from one identical
template over the lane width `w ∈ {8,16,32,64}`: a rolling `w`-bit output register is
filled with successive input lanes shifted to `inner_cursor = (i * NUM_BITS) % w` and
flushed (stored little-endian) whenever it fills.  The shifts are `w`-bit machine
shifts, so the shifted lane is truncated with `% 2 ^ w`.  The template is modelled
once, parametrised by `w`, and instantiated four times below. -/

/-- The body of the unrolled loop (`iter in 0..w-2`, i.e. lanes `i = 1` to `w-2`) of
the pack template. -/
def pack_step (w num_bits : Nat) (input : List Nat) (st : List Nat × Nat) (i : Nat) :
    List Nat × Nat :=
  let out := st.1
  let reg := st.2
  let bits_filled := i * num_bits
  let inner_cursor := bits_filled % w
  let remaining := w - inner_cursor
  let in_register := input.getD i 0
  let reg :=
    if inner_cursor > 0 then reg ||| ((in_register <<< inner_cursor) % 2 ^ w)
    else in_register
  if remaining ≤ num_bits then
    (out ++ le_bytes (w / 8) reg,
     if 0 < remaining ∧ remaining < num_bits then in_register >>> remaining else reg)
  else (out, reg)

/-- The final-lane step (`i = w - 1`) of the pack template. -/
def pack_final (w num_bits : Nat) (input : List Nat) (st : List Nat × Nat) : List Nat :=
  let in_register := input.getD (w - 1) 0
  let reg :=
    if w - num_bits > 0 then st.2 ||| ((in_register <<< (w - num_bits)) % 2 ^ w)
    else st.2 ||| in_register
  st.1 ++ le_bytes (w / 8) reg

/-- The bytes stored by the pack template for `num_bits > 0`: register initialised to
lane 0, loop over lanes `1..=w-2`, then the final lane. -/
def pack_written (w num_bits : Nat) (input : List Nat) : List Nat :=
  pack_final w num_bits input
    ((List.range' 1 (w - 2)).foldl (pack_step w num_bits input) ([], input.getD 0 0))

/-- The pack template applied to an output buffer: `num_bits = 0` zeroes the whole
buffer, otherwise the stored bytes overwrite the front of the buffer. -/
def pack_apply (w : Nat) (input output : List Nat) (num_bits : Nat) : List Nat :=
  if num_bits = 0 then output.map (fun _ => 0)
  else
    let written := pack_written w num_bits input
    written ++ output.drop written.length

/-- `pack8` of `pack.rs` (8 lanes of `u8`). -/
def pack8 (input output : List Nat) (num_bits : Nat) : List Nat :=
  pack_apply 8 input output num_bits

/-- `pack16` of `pack.rs` (16 lanes of `u16`). -/
def pack16 (input output : List Nat) (num_bits : Nat) : List Nat :=
  pack_apply 16 input output num_bits

/-- `pack32` of `pack.rs` (32 lanes of `u32`). -/
def pack32 (input output : List Nat) (num_bits : Nat) : List Nat :=
  pack_apply 32 input output num_bits

/-- `pack64` of `pack.rs` (64 lanes of `u64`). -/
def pack64 (input output : List Nat) (num_bits : Nat) : List Nat :=
  pack_apply 64 input output num_bits

/-- Little-endian byte list to value. -/
def bytes_to_nat : List Nat → Nat
  | [] => 0
  | b :: bs => b % 256 + 256 * bytes_to_nat bs

/-- The unpacking routine corresponding to the pack kernels (`unpack.rs`, outside the
given sources).  Modelled from the spec: lane `i` of the unpacked block is the bit
field `[i * num_bits, (i+1) * num_bits)` of the packed little-endian byte stream. -/
def unpack_lanes (w : Nat) (bytes : List Nat) (num_bits : Nat) : List Nat :=
  (List.range w).map (fun i => (bytes_to_nat bytes >>> (i * num_bits)) % 2 ^ num_bits)

/-! ## Specification-side quantities for the level claims -/

/-- The maximum possible definition level of a path: the sum of each node's
contribution, `is_optional + 1` for the list kinds and `is_optional` for structs
and the primitive leaf. -/
def max_level (nested : List Nested) : Nat :=
  (nested.map (fun n =>
    match n with
    | .primitive _ is_optional _ => is_optional.toNat
    | .list ln => ln.is_optional.toNat + 1
    | .largeList ln => ln.is_optional.toNat + 1
    | .fixedSizeList _ is_optional _ _ => is_optional.toNat + 1
    | .struct _ is_optional _ => is_optional.toNat)).sum

/-- A descriptor path in the sense of the claims: the node sequence reaches a
`Primitive` leaf (every node before it being a container). -/
def ends_in_primitive : List Nested → Bool
  | [] => false
  | .primitive _ _ _ :: _ => true
  | _ :: rest => ends_in_primitive rest

/-- Schema consistency of a path in the sense of §6 of the spec ("schema nullability
assumed already consistent"): a primitive leaf that carries a validity bitmap is
marked optional.  (A required primitive with a bitmap would exceed its schema
contribution.) -/
def validity_implies_optional : List Nested → Bool
  | [] => true
  | .primitive (some _) is_optional _ :: rest => is_optional && validity_implies_optional rest
  | _ :: rest => validity_implies_optional rest

/-- No node of the path carries a validity bitmap. -/
def no_validity : List Nested → Bool
  | [] => true
  | .primitive v _ _ :: rest => v.isNone && no_validity rest
  | .list ln :: rest => ln.validity.isNone && no_validity rest
  | .largeList ln :: rest => ln.validity.isNone && no_validity rest
  | .fixedSizeList v _ _ _ :: rest => v.isNone && no_validity rest
  | .struct v _ _ :: rest => v.isNone && no_validity rest

/-- Length of the window the head node presents (`nested[0].len()` with 0 for an
empty path). -/
def head_len : List Nested → Nat
  | [] => 0
  | n :: _ => n.len

/-- Boolean check that an offsets buffer is monotone non-decreasing. -/
def mono_offsets : List Nat → Bool
  | [] => true
  | [_] => true
  | a :: b :: rest => decide (a ≤ b) && mono_offsets (b :: rest)

/-- Structurally well-formed path for the length analysis: ends in a `Primitive`,
every list node has monotone non-decreasing, non-empty offsets whose covered range
equals the next node's length, and every struct's length equals the next node's
length.  (`FixedSizeList` is excluded: its per-position recursion is window-relative
in the source, which makes its emitted count position-dependent in ways `num_values`
does not track.) -/
def wf_path : List Nested → Bool
  | [.primitive _ _ _] => true
  | .list ln :: rest =>
      mono_offsets ln.offsets && decide (ln.offsets ≠ []) &&
      decide (ln.offsets.getLastD 0 - ln.offsets.headD 0 = head_len rest) && wf_path rest
  | .largeList ln :: rest =>
      mono_offsets ln.offsets && decide (ln.offsets ≠ []) &&
      decide (ln.offsets.getLastD 0 - ln.offsets.headD 0 = head_len rest) && wf_path rest
  | .struct _ _ len :: rest => decide (len = head_len rest) && wf_path rest
  | _ => false

/-- The number of level entries the reference algorithms emit for the window
`[offset, offset + length)` of a path (the claim's `num_values`, generalised to a
window).  The `FixedSizeList` branch is unused (`wf_path` excludes it). -/
def win_count : List Nested → Nat → Nat → Nat
  | [], _, _ => 0
  | .primitive _ _ _ :: _, _, l => l
  | .list ln :: rest, o, l =>
      ((List.range l).map (fun i =>
        let s := ln.offsets.getD (o + i) 0
        let e := ln.offsets.getD (o + i + 1) 0
        if e - s = 0 then 1 else win_count rest (s - ln.offsets.headD 0) (e - s))).sum
  | .largeList ln :: rest, o, l =>
      ((List.range l).map (fun i =>
        let s := ln.offsets.getD (o + i) 0
        let e := ln.offsets.getD (o + i + 1) 0
        if e - s = 0 then 1 else win_count rest (s - ln.offsets.headD 0) (e - s))).sum
  | .struct _ _ _ :: rest, o, l => win_count rest o l
  | .fixedSizeList _ _ _ _ :: _, _, _ => 0

/-- The packed bit stream of the first `i` lanes as a single natural number:
lane `j` occupies bits `[j * b, (j+1) * b)`. -/
def lanes_value (b : Nat) (input : List Nat) (i : Nat) : Nat :=
  ((List.range i).map (fun j => input.getD j 0 <<< (j * b))).sum

end PolarsParquet

namespace PolarsParquet

/-! # Claim theorems -/

/-- Claim C10: on an empty descriptor slice, `calculate_def_levels`,
`calculate_rep_levels` and `to_levels` all return `Ok` with empty output vectors. -/
theorem empty_path_returns_ok_empty :
    calculate_def_levels [] = .ok [] ∧ calculate_rep_levels [] = .ok [] ∧
    to_levels [] = .ok ([], []) :=
  ⟨rfl, rfl, rfl⟩

/-- Claim C3: on the list-of-struct-of-list path with mixed validity at all levels
(test scenario `nested_list_struct_list_nullable`), the reference algorithms produce
exactly the definition levels `[6,6,0,6,2,6,3,3,3,1,6,5,6,6,0,4]` and repetition
levels `[0,1,0,0,1,1,0,1,1,0,0,1,1,2,0,0]`. -/
theorem nested_list_struct_list_nullable_levels :
    calculate_def_levels [
        .list ⟨true, [0, 2, 2, 5, 8, 8, 11, 11, 12],
          some [true, false, true, true, true, true, false, true]⟩,
        .struct (some [true, true, true, false, true, true, true, true, true, true, true, true])
          true 12,
        .list ⟨true, [0, 1, 2, 3, 3, 4, 4, 4, 4, 5, 6, 8, 8],
          some [true, true, true, false, true, false, false, false, true, true, true, true]⟩,
        .primitive (some [true, true, true, true, true, false, true, true]) true 8] =
      .ok [6, 6, 0, 6, 2, 6, 3, 3, 3, 1, 6, 5, 6, 6, 0, 4] ∧
    calculate_rep_levels [
        .list ⟨true, [0, 2, 2, 5, 8, 8, 11, 11, 12],
          some [true, false, true, true, true, true, false, true]⟩,
        .struct (some [true, true, true, false, true, true, true, true, true, true, true, true])
          true 12,
        .list ⟨true, [0, 1, 2, 3, 3, 4, 4, 4, 4, 5, 6, 8, 8],
          some [true, true, true, false, true, false, false, false, true, true, true, true]⟩,
        .primitive (some [true, true, true, true, true, false, true, true]) true 8] =
      .ok [0, 1, 0, 0, 1, 1, 0, 1, 1, 0, 0, 1, 1, 2, 0, 0] := by
  constructor <;> decide

/-- Claim C1 (failing input): on the path "required list with a single empty run"
the combined single pass `to_levels` returns definition levels `[1]`, while the
recursive reference `calculate_def_levels` returns `[0]` (the value pinned by the
`l1_required_required` test for empty runs of a required list); the repetition sides
agree.  So `to_levels` does not refine the reference pair. -/
theorem to_levels_diverges_from_reference :
    to_levels [.list ⟨false, [0, 0], none⟩, .primitive none false 0] = .ok ([1], [0]) ∧
    calculate_def_levels [.list ⟨false, [0, 0], none⟩, .primitive none false 0] = .ok [0] ∧
    calculate_rep_levels [.list ⟨false, [0, 0], none⟩, .primitive none false 0] = .ok [0] := by
  refine ⟨by decide, by decide, by decide⟩

/-- Claim C2 (counterexample): on an optional list whose single null position has a
non-empty backing run (`offsets = [0,2]`, validity `[false]`), both level sequences
have length 1, but `num_values` is 2 — the claimed equality of the three lengths
fails at this input. -/
theorem level_length_counterexample :
    calculate_def_levels [.list ⟨true, [0, 2], some [false]⟩, .primitive none true 2] =
        .ok [0] ∧
    calculate_rep_levels [.list ⟨true, [0, 2], some [false]⟩, .primitive none true 2] =
        .ok [0] ∧
    num_values [.list ⟨true, [0, 2], some [false]⟩, .primitive none true 2] = 2 ∧
    ([0] : List Nat).length ≠ 2 := by
  refine ⟨by decide, by decide, by decide, by decide⟩

/-- Claim C4 (counterexample): a required primitive that nevertheless carries a
validity bitmap produces definition level `1`, although its `max_level` is `0` —
the claimed bound fails on such a path. -/
theorem def_level_bound_counterexample :
    calculate_def_levels [.primitive (some [true]) false 1] = .ok [1] ∧
    max_level [.primitive (some [true]) false 1] = 0 := by
  refine ⟨by decide, by decide⟩

/-- Claim C6 (counterexample): with a list validity bitmap of length 0 but declared
length 1 (bitmap shorter than the node's length), `calculate_def_levels` silently
returns `Ok` instead of reporting the structured error. -/
theorem def_levels_no_error_on_short_bitmap :
    calculate_def_levels [.list ⟨true, [0, 1], some []⟩, .primitive none true 1] =
      .ok [] := by
  decide

/-- Claim C8: `encode_bool` on exactly eight `true` values emits a single bit-packed
group: the header byte `(1 << 1) | 1 = 3` followed by the packed byte `0b11111111` —
not an RLE run. -/
theorem encode_bool_eight_true :
    encode_bool (List.replicate 8 true) = [(1 <<< 1) ||| 1, 0b11111111] := by
  decide

set_option maxRecDepth 8000 in
/-- Claim C9 (failing input): at bit width equal to the lane width, the pack kernels
never flush lane 0 into the output (the rolling register is overwritten before its
first store), so packing `[1, 0, ..., 0]` writes all-zero bytes at every lane width,
and no unpacking routine can recover the input; the claimed round-trip fails at
`num_bits = lane width`. -/
theorem pack_full_width_drops_first_lane :
    pack8 (1 :: List.replicate 7 0) (List.replicate 8 0) 8 = List.replicate 8 0 ∧
    unpack_lanes 8 (pack8 (1 :: List.replicate 7 0) (List.replicate 8 0) 8) 8 ≠
      1 :: List.replicate 7 0 ∧
    pack16 (1 :: List.replicate 15 0) (List.replicate 32 0) 16 = List.replicate 32 0 ∧
    pack32 (1 :: List.replicate 31 0) (List.replicate 128 0) 32 = List.replicate 128 0 ∧
    pack64 (1 :: List.replicate 63 0) (List.replicate 512 0) 64 = List.replicate 512 0 := by
  refine ⟨by decide, by decide, by decide, by decide, by decide⟩

/-! ## Helper lemmas: fold state of `encode_u32` on a constant run -/

theorem take_le_bytes : ∀ (m k v : Nat), k ≤ m → (le_bytes m v).take k = le_bytes k v
  | _, 0, _, _ => by simp [le_bytes]
  | 0, k + 1, _, h => by omega
  | m + 1, k + 1, v, h => by
      simp [le_bytes, take_le_bytes m k (v / 256) (by omega)]

theorem enc_step_first (w v : Nat) :
    encode_u32_step w ⟨[], 0, [], 0, 0, 0⟩ v = ⟨[], 1, [v], 1, 0, v⟩ := by
  by_cases h : v = 0 <;> simp [encode_u32_step, h, MAX_VALUES_PER_LITERAL_RUN]

theorem enc_step_mid (w v k : Nat) (h8 : k + 1 ≤ 8) :
    encode_u32_step w ⟨[], k, List.replicate k v, k, 0, v⟩ v =
      ⟨[], k + 1, List.replicate (k + 1) v, k + 1, 0, v⟩ := by
  have hk : ¬ (k + 1 > 8) := by omega
  have hmax : ¬ (k = MAX_VALUES_PER_LITERAL_RUN) := by
    simp [MAX_VALUES_PER_LITERAL_RUN]; omega
  by_cases h7 : k + 1 = 8 <;>
    simp [encode_u32_step, hk, hmax, h7, List.take_replicate, ← List.replicate_succ',
      Nat.min_eq_left (le_refl k)]

theorem enc_step_run (w v k : Nat) (h8 : 8 ≤ k) :
    encode_u32_step w ⟨[], k, List.replicate 8 v, 8, 0, v⟩ v =
      ⟨[], k + 1, List.replicate 8 v, 8, 0, v⟩ := by
  have hk : k + 1 > 8 := by omega
  simp [encode_u32_step, hk]

theorem enc_fold_low (w v : Nat) : ∀ k, 1 ≤ k → k ≤ 8 →
    (List.replicate k v).foldl (encode_u32_step w) ⟨[], 0, [], 0, 0, 0⟩ =
      ⟨[], k, List.replicate k v, k, 0, v⟩ := by
  intro k
  induction k with
  | zero => omega
  | succ k ih =>
    intro _ hk8
    rcases Nat.eq_zero_or_pos k with hk0 | hkpos
    · subst hk0
      simpa using enc_step_first w v
    · rw [List.replicate_succ', List.foldl_append, ih hkpos (by omega)]
      simp only [List.foldl_cons, List.foldl_nil]
      rw [enc_step_mid w v k hk8, List.replicate_succ']

theorem enc_fold (w v : Nat) : ∀ k, 8 ≤ k →
    (List.replicate k v).foldl (encode_u32_step w) ⟨[], 0, [], 0, 0, 0⟩ =
      ⟨[], k, List.replicate 8 v, 8, 0, v⟩ := by
  intro k
  induction k with
  | zero => omega
  | succ k ih =>
    intro h
    rcases Nat.lt_or_ge k 8 with hk | hk
    · have hke : k + 1 = 8 := by omega
      rw [hke]
      exact enc_fold_low w v 8 (by omega) (by omega)
    · rw [List.replicate_succ', List.foldl_append, ih hk]
      simp only [List.foldl_cons, List.foldl_nil]
      rw [enc_step_run w v k hk]

/-- Claim C7: once at least 9 consecutive equal values are seen, `encode_u32` emits
them as a single RLE run: for every `n ≥ 9`, value `v` and bit width `w ≤ 32` (a
`u32` has only 4 little-endian bytes to slice from), encoding `n` copies of `v`
writes exactly the ULEB128 bytes of `n << 1` followed by the low `ceil8 w`
little-endian bytes of `v`. -/
theorem encode_u32_rle_run (n v w : Nat) (hn : 9 ≤ n) (hw : w ≤ 32) :
    encode_u32 (List.replicate n v) w =
      uleb128_encode (n <<< 1) ++ le_bytes (ceil8 w) v := by
  have hcw : ceil8 w ≤ 4 := by
    simp [ceil8]; omega
  have h1 : ¬ (n ≤ 8) := by omega
  have h2 : 8 < n := by omega
  rw [encode_u32, enc_fold w v n (by omega)]
  simp [h1, h2, run_length_encode_u32, take_le_bytes 4 (ceil8 w) v hcw]

/-- Witness for `encode_u32_rle_run` at the concrete input `n = 10`, `v = 3`,
`w = 2`. -/
theorem encode_u32_rle_run_witness :
    encode_u32 (List.replicate 10 3) 2 = uleb128_encode (10 <<< 1) ++ le_bytes (ceil8 2) 3 :=
  encode_u32_rle_run 10 3 2 (by decide) (by decide)



theorem except_bind_ok {α β : Type} {x : Except String α} {f : α → Except String β} {b : β}
    (h : (x >>= f) = .ok b) : ∃ a, x = .ok a ∧ f a = .ok b := by
  cases x with
  | ok a => exact ⟨a, rfl, h⟩
  | error e => exact absurd h (by simp [Bind.bind, Except.bind])

theorem except_pure_ok {α : Type} {a b : α} (h : (pure a : Except String α) = .ok b) :
    a = b := by
  simpa [Pure.pure, Except.pure] using h

theorem head?_append_of_head? {α : Type} {l l₂ : List α} {a : α} (h : l.head? = some a) :
    (l ++ l₂).head? = some a := by
  cases l with
  | nil => simp at h
  | cons x xs => simpa using h

theorem except_map_ok {α β : Type} {f : α → β} {x : Except String α} {b : β}
    (h : (f <$> x) = .ok b) : ∃ a, x = .ok a ∧ f a = b := by
  cases x with
  | ok a =>
    refine ⟨a, rfl, ?_⟩
    simpa [Functor.map, Except.map] using h
  | error e => exact absurd h (by simp [Functor.map, Except.map])

theorem rep_head : ∀ (nested : List Nested), ends_in_primitive nested = true →
    ∀ cur par o l out, rep_levels_recursive nested cur par o l = .ok out →
      out.head? = some par := by
  intro nested
  induction nested with
  | nil => intro h; simp [ends_in_primitive] at h
  | cons node rest ih =>
    intro hp cur par o l out h
    by_cases hl : l = 0
    · subst hl
      simp [rep_levels_recursive] at h
      cases except_pure_ok h
      simp
    · cases node with
      | primitive v io len =>
        simp [rep_levels_recursive, hl] at h
        cases except_pure_ok h
        simp
      | list ln =>
        simp only [ends_in_primitive] at hp
        simp only [rep_levels_recursive, if_neg hl] at h
        rcases hv : ln.validity with _ | bm <;> simp only [rep_levels_list, hv] at h
        · obtain ⟨hd, hhd, h2⟩ := except_bind_ok h
          obtain ⟨tl, htl, hout⟩ := except_bind_ok h2
          cases except_pure_ok hout
          exact head?_append_of_head? (ih hp _ _ _ _ _ hhd)
        · rcases hsb : bslice bm o l with _ | ⟨b, bs⟩ <;> simp only [hsb] at h
          · exact absurd h (by simp)
          · cases b with
            | true =>
              simp only [if_pos rfl] at h
              obtain ⟨hd, hhd, h2⟩ := except_bind_ok h
              obtain ⟨tl, htl, hout⟩ := except_map_ok h2
              subst hout
              exact head?_append_of_head? (ih hp _ _ _ _ _ hhd)
            | false =>
              simp only [Bool.false_eq_true, if_false] at h
              obtain ⟨tl, htl, hout⟩ := except_map_ok h
              subst hout
              simp
      | largeList ln =>
        simp only [ends_in_primitive] at hp
        simp only [rep_levels_recursive, if_neg hl] at h
        rcases hv : ln.validity with _ | bm <;> simp only [rep_levels_list, hv] at h
        · obtain ⟨hd, hhd, h2⟩ := except_bind_ok h
          obtain ⟨tl, htl, hout⟩ := except_bind_ok h2
          cases except_pure_ok hout
          exact head?_append_of_head? (ih hp _ _ _ _ _ hhd)
        · rcases hsb : bslice bm o l with _ | ⟨b, bs⟩ <;> simp only [hsb] at h
          · exact absurd h (by simp)
          · cases b with
            | true =>
              simp only [if_pos rfl] at h
              obtain ⟨hd, hhd, h2⟩ := except_bind_ok h
              obtain ⟨tl, htl, hout⟩ := except_map_ok h2
              subst hout
              exact head?_append_of_head? (ih hp _ _ _ _ _ hhd)
            | false =>
              simp only [Bool.false_eq_true, if_false] at h
              obtain ⟨tl, htl, hout⟩ := except_map_ok h
              subst hout
              simp
      | struct v io len =>
        simp only [ends_in_primitive] at hp
        simp only [rep_levels_recursive, if_neg hl] at h
        rcases hv : v with _ | bm <;> simp only [hv] at h
        · obtain ⟨hd, hhd, h2⟩ := except_bind_ok h
          by_cases h1l : l > 1
          · simp only [if_pos h1l] at h2
            obtain ⟨tl, htl, hout⟩ := except_bind_ok h2
            cases except_pure_ok hout
            exact head?_append_of_head? (ih hp _ _ _ _ _ hhd)
          · simp only [if_neg h1l] at h2
            obtain ⟨tl, htl, hout⟩ := except_bind_ok h2
            cases except_pure_ok hout
            exact head?_append_of_head? (ih hp _ _ _ _ _ hhd)
        · rcases hsb : bslice bm o l with _ | ⟨b, bs⟩ <;> simp only [hsb] at h
          · cases except_pure_ok h
            simp
          · cases b with
            | true =>
              simp only [if_pos rfl] at h
              obtain ⟨hd, hhd, h2⟩ := except_bind_ok h
              obtain ⟨tl, htl, hout⟩ := except_map_ok h2
              subst hout
              exact head?_append_of_head? (ih hp _ _ _ _ _ hhd)
            | false =>
              simp only [Bool.false_eq_true, if_false] at h
              obtain ⟨tl, htl, hout⟩ := except_map_ok h
              subst hout
              simp
      | fixedSizeList v io w len =>
        simp only [ends_in_primitive] at hp
        simp only [rep_levels_recursive, if_neg hl] at h
        rcases hv : v with _ | bm <;> simp only [hv] at h
        · obtain ⟨hd, hhd, h2⟩ := except_bind_ok h
          obtain ⟨tl, htl, hout⟩ := except_bind_ok h2
          cases except_pure_ok hout
          exact head?_append_of_head? (ih hp _ _ _ _ _ hhd)
        · rcases hsb : bslice bm o l with _ | ⟨b, bs⟩ <;> simp only [hsb] at h
          · exact absurd h (by simp)
          · cases b with
            | true =>
              simp only [if_pos rfl] at h
              obtain ⟨hd, hhd, h2⟩ := except_bind_ok h
              obtain ⟨tl, htl, hout⟩ := except_map_ok h2
              subst hout
              exact head?_append_of_head? (ih hp _ _ _ _ _ hhd)
            | false =>
              simp only [Bool.false_eq_true, if_false] at h
              obtain ⟨tl, htl, hout⟩ := except_map_ok h
              subst hout
              simp



theorem combine2_snd_of_pure_ok {hd : List Nat × List Nat} {tl : List (List Nat × List Nat)}
    {d r : List Nat}
    (h : (pure (combine2 hd tl) : Except String (List Nat × List Nat)) = .ok (d, r)) :
    r = hd.2 ++ (tl.map Prod.snd).flatten := by
  have h1 := except_pure_ok h
  have h2 := congrArg Prod.snd h1
  simpa [combine2] using h2.symm

theorem to_levels_head : ∀ (nested : List Nested), ends_in_primitive nested = true →
    ∀ cur par bonus o l d r, to_levels_recursive nested cur par bonus o l = .ok (d, r) →
      r.head? = some par := by
  intro nested
  induction nested with
  | nil => intro h; simp [ends_in_primitive] at h
  | cons node rest ih =>
    intro hp cur par bonus o l d r h
    cases node with
    | primitive v io len =>
      by_cases hl : l = 0 <;> simp only [to_levels_recursive, hl, reduceIte] at h <;>
      · have hpair := except_pure_ok h
        injection hpair with h1 h2
        subst h2
        simp
    | list ln =>
      simp only [ends_in_primitive] at hp
      by_cases hl : l = 0 <;>
        simp only [to_levels_recursive, to_levels_list, hl, reduceIte] at h
      · have hpair := except_pure_ok h
        injection hpair with h1 h2
        subst h2
        simp
      · rcases hv : ln.validity with _ | bm <;> simp only [hv] at h
        · obtain ⟨hd, hhd, h2⟩ := except_bind_ok h
          obtain ⟨tl, htl, hout⟩ := except_bind_ok h2
          obtain ⟨d1, r1⟩ := hd
          rw [combine2_snd_of_pure_ok hout]
          exact head?_append_of_head? (ih hp _ _ _ _ _ _ _ hhd)
        · rcases hbm : bm with _ | ⟨b, bs⟩ <;> simp only [hbm] at h
          · exact absurd h (by simp)
          · cases b with
            | true =>
              simp only [if_pos rfl] at h
              obtain ⟨hd, hhd, h2⟩ := except_bind_ok h
              obtain ⟨tl, htl, hout⟩ := except_bind_ok h2
              obtain ⟨d1, r1⟩ := hd
              rw [combine2_snd_of_pure_ok hout]
              exact head?_append_of_head? (ih hp _ _ _ _ _ _ _ hhd)
            | false =>
              simp only [Bool.false_eq_true, if_false] at h
              obtain ⟨hd, hhd, h2⟩ := except_bind_ok h
              obtain ⟨tl, htl, hout⟩ := except_bind_ok h2
              obtain ⟨d1, r1⟩ := hd
              rw [combine2_snd_of_pure_ok hout]
              have hpair := except_pure_ok hhd
              injection hpair with h1 h2
              subst h2
              simp
    | largeList ln =>
      simp only [ends_in_primitive] at hp
      by_cases hl : l = 0 <;>
        simp only [to_levels_recursive, to_levels_list, hl, reduceIte] at h
      · have hpair := except_pure_ok h
        injection hpair with h1 h2
        subst h2
        simp
      · rcases hv : ln.validity with _ | bm <;> simp only [hv] at h
        · obtain ⟨hd, hhd, h2⟩ := except_bind_ok h
          obtain ⟨tl, htl, hout⟩ := except_bind_ok h2
          obtain ⟨d1, r1⟩ := hd
          rw [combine2_snd_of_pure_ok hout]
          exact head?_append_of_head? (ih hp _ _ _ _ _ _ _ hhd)
        · rcases hbm : bm with _ | ⟨b, bs⟩ <;> simp only [hbm] at h
          · exact absurd h (by simp)
          · cases b with
            | true =>
              simp only [if_pos rfl] at h
              obtain ⟨hd, hhd, h2⟩ := except_bind_ok h
              obtain ⟨tl, htl, hout⟩ := except_bind_ok h2
              obtain ⟨d1, r1⟩ := hd
              rw [combine2_snd_of_pure_ok hout]
              exact head?_append_of_head? (ih hp _ _ _ _ _ _ _ hhd)
            | false =>
              simp only [Bool.false_eq_true, if_false] at h
              obtain ⟨hd, hhd, h2⟩ := except_bind_ok h
              obtain ⟨tl, htl, hout⟩ := except_bind_ok h2
              obtain ⟨d1, r1⟩ := hd
              rw [combine2_snd_of_pure_ok hout]
              have hpair := except_pure_ok hhd
              injection hpair with h1 h2
              subst h2
              simp
    | struct v io len =>
      simp only [ends_in_primitive] at hp
      by_cases hl : l = 0 <;>
        simp only [to_levels_recursive, hl, reduceIte] at h
      · have hpair := except_pure_ok h
        injection hpair with h1 h2
        subst h2
        simp
      · rcases hv : v with _ | bm <;> simp only [hv] at h
        · obtain ⟨hd, hhd, h2⟩ := except_bind_ok h
          obtain ⟨tl, htl, hout⟩ := except_bind_ok h2
          obtain ⟨d1, r1⟩ := hd
          rw [combine2_snd_of_pure_ok hout]
          exact head?_append_of_head? (ih hp _ _ _ _ _ _ _ hhd)
        · rcases hbm : bm with _ | ⟨b, bs⟩ <;> simp only [hbm] at h
          · have hpair := except_pure_ok h
            injection hpair with h1 h2
            subst h2
            simp
          · cases b with
            | true =>
              simp only [if_pos rfl] at h
              obtain ⟨hd, hhd, h2⟩ := except_bind_ok h
              obtain ⟨tl, htl, hout⟩ := except_bind_ok h2
              obtain ⟨d1, r1⟩ := hd
              rw [combine2_snd_of_pure_ok hout]
              exact head?_append_of_head? (ih hp _ _ _ _ _ _ _ hhd)
            | false =>
              simp only [Bool.false_eq_true, if_false] at h
              obtain ⟨hd, hhd, h2⟩ := except_bind_ok h
              obtain ⟨tl, htl, hout⟩ := except_bind_ok h2
              obtain ⟨d1, r1⟩ := hd
              rw [combine2_snd_of_pure_ok hout]
              have hpair := except_pure_ok hhd
              injection hpair with h1 h2
              subst h2
              simp
    | fixedSizeList v io w len =>
      simp only [ends_in_primitive] at hp
      by_cases hl : l = 0 <;>
        simp only [to_levels_recursive, hl, reduceIte] at h
      · have hpair := except_pure_ok h
        injection hpair with h1 h2
        subst h2
        simp
      · rcases hv : v with _ | bm <;> simp only [hv] at h
        · obtain ⟨hd, hhd, h2⟩ := except_bind_ok h
          obtain ⟨tl, htl, hout⟩ := except_bind_ok h2
          obtain ⟨d1, r1⟩ := hd
          rw [combine2_snd_of_pure_ok hout]
          exact head?_append_of_head? (ih hp _ _ _ _ _ _ _ hhd)
        · rcases hsb : bslice bm o l with _ | ⟨b, bs⟩ <;> simp only [hsb] at h
          · exact absurd h (by simp)
          · cases b with
            | true =>
              simp only [if_pos rfl] at h
              obtain ⟨hd, hhd, h2⟩ := except_bind_ok h
              obtain ⟨tl, htl, hout⟩ := except_bind_ok h2
              obtain ⟨d1, r1⟩ := hd
              rw [combine2_snd_of_pure_ok hout]
              exact head?_append_of_head? (ih hp _ _ _ _ _ _ _ hhd)
            | false =>
              simp only [Bool.false_eq_true, if_false] at h
              obtain ⟨hd, hhd, h2⟩ := except_bind_ok h
              obtain ⟨tl, htl, hout⟩ := except_bind_ok h2
              obtain ⟨d1, r1⟩ := hd
              rw [combine2_snd_of_pure_ok hout]
              have hpair := except_pure_ok hhd
              injection hpair with h1 h2
              subst h2
              simp

/-- Claim C5: for every descriptor path (a node sequence reaching a `Primitive`
leaf), whenever the computed repetition-level sequence is non-empty its first
element is `0` — both for `calculate_rep_levels` and for the repetition side of
`to_levels`.  (The conclusion `head? = some 0` also shows the sequences are in
fact non-empty whenever the computation succeeds.) -/
theorem first_rep_level_is_zero (nested : List Nested)
    (hp : ends_in_primitive nested = true) :
    (∀ r, calculate_rep_levels nested = .ok r → r.head? = some 0) ∧
    (∀ d r, to_levels nested = .ok (d, r) → r.head? = some 0) := by
  constructor
  · intro r h
    cases nested with
    | nil => simp [ends_in_primitive] at hp
    | cons n rest =>
      exact rep_head _ hp 0 0 0 _ r (by simpa [calculate_rep_levels] using h)
  · intro d r h
    cases nested with
    | nil => simp [ends_in_primitive] at hp
    | cons n rest =>
      exact to_levels_head _ hp 0 0 0 0 _ d r (by simpa [to_levels] using h)

/-- Witness for `first_rep_level_is_zero` at the concrete path
`[Primitive(None, optional, 3)]`: the computed repetition levels `[0,0,0]` start
with `0`. -/
theorem first_rep_level_is_zero_witness :
    ([0, 0, 0] : List Nat).head? = some 0 :=
  (first_rep_level_is_zero [.primitive none true 3] (by decide)).1 [0, 0, 0] (by decide)

theorem max_level_primitive (v : Option (List Bool)) (io : Bool) (len : Nat)
    (rest : List Nested) :
    max_level (.primitive v io len :: rest) = io.toNat + max_level rest := by
  simp [max_level]

theorem max_level_list_node (ln : ListNested) (rest : List Nested) :
    max_level (.list ln :: rest) = ln.is_optional.toNat + 1 + max_level rest := by
  simp [max_level]

theorem max_level_largeList (ln : ListNested) (rest : List Nested) :
    max_level (.largeList ln :: rest) = ln.is_optional.toNat + 1 + max_level rest := by
  simp [max_level]

theorem max_level_struct (v : Option (List Bool)) (io : Bool) (len : Nat)
    (rest : List Nested) :
    max_level (.struct v io len :: rest) = io.toNat + max_level rest := by
  simp [max_level]

theorem max_level_fixedSizeList (v : Option (List Bool)) (io : Bool) (w len : Nat)
    (rest : List Nested) :
    max_level (.fixedSizeList v io w len :: rest) = io.toNat + 1 + max_level rest := by
  simp [max_level]

theorem mapE_ok_mem {α β : Type} {f : α → Except String β} :
    ∀ {l : List α} {out : List β}, mapE l f = .ok out →
      ∀ y ∈ out, ∃ a ∈ l, f a = .ok y := by
  intro l
  induction l with
  | nil =>
    intro out h y hy
    cases except_pure_ok h
    simp at hy
  | cons a as ih =>
    intro out h y hy
    obtain ⟨hd, hhd, h2⟩ := except_bind_ok h
    obtain ⟨tl, htl, hout⟩ := except_bind_ok h2
    cases except_pure_ok hout
    rcases List.mem_cons.1 hy with hy | hy
    · exact ⟨a, List.mem_cons_self a as, hy ▸ hhd⟩
    · obtain ⟨b, hb, hfb⟩ := ih htl y hy
      exact ⟨b, List.mem_cons_of_mem a hb, hfb⟩

theorem def_levels_le : ∀ (nested : List Nested), validity_implies_optional nested = true →
    ∀ cur o l x, x ∈ def_levels_recursive nested cur o l → x ≤ cur + max_level nested := by
  intro nested
  induction nested with
  | nil => intro _ cur o l x hx; simp [def_levels_recursive] at hx
  | cons node rest ih =>
    intro hv cur o l x hx
    cases node with
    | primitive v io len =>
      rcases v with _ | bm
      · simp only [def_levels_recursive] at hx
        have hxe := List.eq_of_mem_replicate hx
        subst hxe
        rw [max_level_primitive]
        omega
      · have hio : io = true := by
          simp [validity_implies_optional] at hv
          exact hv.1
        subst hio
        simp only [def_levels_recursive] at hx
        obtain ⟨b, _, hbe⟩ := List.mem_map.1 (List.mem_of_mem_take hx)
        subst hbe
        rw [max_level_primitive]
        have hb := Bool.toNat_le b
        have ht : (true : Bool).toNat = 1 := rfl
        omega
    | list ln =>
      have hvr : validity_implies_optional rest = true := by
        simpa [validity_implies_optional] using hv
      simp only [def_levels_recursive, def_levels_list] at hx
      rw [max_level_list_node]
      rcases hvv : ln.validity with _ | bm <;> simp only [hvv] at hx <;>
        obtain ⟨p, _, hxp⟩ := List.mem_flatMap.1 hx
      · split at hxp
        · rcases List.mem_singleton.1 hxp with rfl
          omega
        · have := ih hvr _ _ _ _ hxp
          omega
      · split at hxp
        · split at hxp
          · rcases List.mem_singleton.1 hxp with rfl
            omega
          · have := ih hvr _ _ _ _ hxp
            omega
        · rcases List.mem_singleton.1 hxp with rfl
          omega
    | largeList ln =>
      have hvr : validity_implies_optional rest = true := by
        simpa [validity_implies_optional] using hv
      simp only [def_levels_recursive, def_levels_list] at hx
      rw [max_level_largeList]
      rcases hvv : ln.validity with _ | bm <;> simp only [hvv] at hx <;>
        obtain ⟨p, _, hxp⟩ := List.mem_flatMap.1 hx
      · split at hxp
        · rcases List.mem_singleton.1 hxp with rfl
          omega
        · have := ih hvr _ _ _ _ hxp
          omega
      · split at hxp
        · split at hxp
          · rcases List.mem_singleton.1 hxp with rfl
            omega
          · have := ih hvr _ _ _ _ hxp
            omega
        · rcases List.mem_singleton.1 hxp with rfl
          omega
    | struct v io len =>
      have hvr : validity_implies_optional rest = true := by
        simpa [validity_implies_optional] using hv
      simp only [def_levels_recursive] at hx
      rw [max_level_struct]
      rcases v with _ | bm <;>
        obtain ⟨p, _, hxp⟩ := List.mem_flatMap.1 hx
      · have := ih hvr _ _ _ _ hxp
        omega
      · split at hxp
        · have := ih hvr _ _ _ _ hxp
          omega
        · rcases List.mem_singleton.1 hxp with rfl
          omega
    | fixedSizeList v io w len =>
      have hvr : validity_implies_optional rest = true := by
        simpa [validity_implies_optional] using hv
      simp only [def_levels_recursive] at hx
      rw [max_level_fixedSizeList]
      rcases v with _ | bm <;>
        obtain ⟨p, _, hxp⟩ := List.mem_flatMap.1 hx
      · have := ih hvr _ _ _ _ hxp
        omega
      · split at hxp
        · have := ih hvr _ _ _ _ hxp
          omega
        · rcases List.mem_singleton.1 hxp with rfl
          omega



theorem combine2_fst_of_pure_ok {hd : List Nat × List Nat} {tl : List (List Nat × List Nat)}
    {d r : List Nat}
    (h : (pure (combine2 hd tl) : Except String (List Nat × List Nat)) = .ok (d, r)) :
    d = hd.1 ++ (tl.map Prod.fst).flatten := by
  have h1 := except_pure_ok h
  have h2 := congrArg Prod.fst h1
  simpa [combine2] using h2.symm

theorem mem_combined_fst {x : Nat} {hd : List Nat × List Nat}
    {tl : List (List Nat × List Nat)}
    (hx : x ∈ hd.1 ++ (tl.map Prod.fst).flatten) :
    x ∈ hd.1 ∨ ∃ pr ∈ tl, x ∈ pr.1 := by
  rcases List.mem_append.1 hx with hx | hx
  · exact Or.inl hx
  · obtain ⟨s, hs, hxs⟩ := List.mem_flatten.1 hx
    obtain ⟨pr, hpr, rfl⟩ := List.mem_map.1 hs
    exact Or.inr ⟨pr, hpr, hxs⟩

theorem to_levels_def_le :
    ∀ (nested : List Nested), validity_implies_optional nested = true →
    ∀ cur par bonus o l d r, par ≤ cur →
      to_levels_recursive nested cur par bonus o l = .ok (d, r) →
      ∀ x ∈ d, x ≤ cur + bonus + max_level nested := by
  intro nested
  induction nested with
  | nil =>
    intro _ cur par bonus o l d r _ h x hx
    have := except_pure_ok h
    injection this with h1 h2
    subst h1
    simp at hx
  | cons node rest ih =>
    intro hv cur par bonus o l d r hpc h x hx
    cases node with
    | primitive v io len =>
      by_cases hl : l = 0
      · simp only [to_levels_recursive, hl, reduceIte] at h
        have := except_pure_ok h
        injection this with h1 h2
        subst h1
        rcases List.mem_singleton.1 hx with rfl
        rw [max_level_primitive]
        omega
      · simp only [to_levels_recursive, hl, reduceIte] at h
        have := except_pure_ok h
        injection this with h1 h2
        subst h1
        rw [max_level_primitive]
        rcases v with _ | bm
        · have := List.eq_of_mem_replicate hx
          omega
        · have hio : io = true := by
            simp [validity_implies_optional] at hv
            exact hv.1
          subst hio
          obtain ⟨b, _, hbe⟩ := List.mem_map.1 (List.mem_of_mem_take hx)
          subst hbe
          have hb := Bool.toNat_le b
          have ht : (true : Bool).toNat = 1 := rfl
          omega
    | list ln =>
      have hvr : validity_implies_optional rest = true := by
        simpa [validity_implies_optional] using hv
      rw [max_level_list_node]
      by_cases hl : l = 0
      · simp only [to_levels_recursive, to_levels_list, hl, reduceIte] at h
        have := except_pure_ok h
        injection this with h1 h2
        subst h1
        rcases List.mem_singleton.1 hx with rfl
        omega
      · simp only [to_levels_recursive, to_levels_list, hl, reduceIte] at h
        rcases hvv : ln.validity with _ | bm <;> simp only [hvv] at h
        · obtain ⟨hd, hhd, h2⟩ := except_bind_ok h
          obtain ⟨tl, htl, hout⟩ := except_bind_ok h2
          rw [combine2_fst_of_pure_ok hout] at hx
          rcases mem_combined_fst hx with hx | ⟨pr, hpr, hxp⟩
          · obtain ⟨d1, r1⟩ := hd
            have := ih hvr _ _ _ _ _ _ _ (hpc.trans (Nat.le_add_right _ _)) hhd x hx
            omega
          · obtain ⟨i, _, hfi⟩ := mapE_ok_mem htl pr hpr
            obtain ⟨p1, p2⟩ := pr
            have := ih hvr _ _ _ _ _ _ _ (Nat.le_add_right _ _) hfi x hxp
            omega
        · rcases hbm : bm with _ | ⟨b, bs⟩ <;> simp only [hbm] at h
          · exact absurd h (by simp)
          · have hrest : ∀ (hd : List Nat × List Nat) tl,
                mapE bs.enum (fun p =>
                  if p.2 = true then
                    to_levels_recursive rest (cur + ln.is_optional.toNat) cur (bonus + 1)
                      ((oslice ln.offsets o (l + 1)).getD p.1 0)
                      ((oslice ln.offsets o (l + 1)).getD (p.1 + 1) 0 -
                        (oslice ln.offsets o (l + 1)).getD p.1 0)
                  else pure ([par + bonus], [cur])) = .ok tl →
                x ∈ hd.1 ++ (tl.map Prod.fst).flatten →
                (∀ y ∈ hd.1, y ≤ cur + bonus + (ln.is_optional.toNat + 1 + max_level rest)) →
                x ≤ cur + bonus + (ln.is_optional.toNat + 1 + max_level rest) := by
              intro hd tl htl hx hhd
              rcases mem_combined_fst hx with hx | ⟨pr, hpr, hxp⟩
              · exact hhd x hx
              · obtain ⟨i, _, hfi⟩ := mapE_ok_mem htl pr hpr
                obtain ⟨p1, p2⟩ := pr
                split at hfi
                · have := ih hvr _ _ _ _ _ _ _ (Nat.le_add_right _ _) hfi x hxp
                  omega
                · have := except_pure_ok hfi
                  injection this with h1 h2
                  subst h1
                  rcases List.mem_singleton.1 hxp with rfl
                  omega
            cases b with
            | true =>
              simp only [if_pos rfl] at h
              obtain ⟨hd, hhd, h2⟩ := except_bind_ok h
              obtain ⟨tl, htl, hout⟩ := except_bind_ok h2
              rw [combine2_fst_of_pure_ok hout] at hx
              obtain ⟨d1, r1⟩ := hd
              refine hrest _ tl htl hx ?_
              intro y hy
              have := ih hvr _ _ _ _ _ _ _ (hpc.trans (Nat.le_add_right _ _)) hhd y hy
              omega
            | false =>
              simp only [Bool.false_eq_true, if_false] at h
              obtain ⟨hd, hhd, h2⟩ := except_bind_ok h
              obtain ⟨tl, htl, hout⟩ := except_bind_ok h2
              rw [combine2_fst_of_pure_ok hout] at hx
              obtain ⟨d1, r1⟩ := hd
              refine hrest _ tl htl hx ?_
              intro y hy
              have := except_pure_ok hhd
              injection this with h1 h2
              subst h1
              rcases List.mem_singleton.1 hy with rfl
              omega
    | largeList ln =>
      have hvr : validity_implies_optional rest = true := by
        simpa [validity_implies_optional] using hv
      rw [max_level_largeList]
      by_cases hl : l = 0
      · simp only [to_levels_recursive, to_levels_list, hl, reduceIte] at h
        have := except_pure_ok h
        injection this with h1 h2
        subst h1
        rcases List.mem_singleton.1 hx with rfl
        omega
      · simp only [to_levels_recursive, to_levels_list, hl, reduceIte] at h
        rcases hvv : ln.validity with _ | bm <;> simp only [hvv] at h
        · obtain ⟨hd, hhd, h2⟩ := except_bind_ok h
          obtain ⟨tl, htl, hout⟩ := except_bind_ok h2
          rw [combine2_fst_of_pure_ok hout] at hx
          rcases mem_combined_fst hx with hx | ⟨pr, hpr, hxp⟩
          · obtain ⟨d1, r1⟩ := hd
            have := ih hvr _ _ _ _ _ _ _ (hpc.trans (Nat.le_add_right _ _)) hhd x hx
            omega
          · obtain ⟨i, _, hfi⟩ := mapE_ok_mem htl pr hpr
            obtain ⟨p1, p2⟩ := pr
            have := ih hvr _ _ _ _ _ _ _ (Nat.le_add_right _ _) hfi x hxp
            omega
        · rcases hbm : bm with _ | ⟨b, bs⟩ <;> simp only [hbm] at h
          · exact absurd h (by simp)
          · have hrest : ∀ (hd : List Nat × List Nat) tl,
                mapE bs.enum (fun p =>
                  if p.2 = true then
                    to_levels_recursive rest (cur + ln.is_optional.toNat) cur (bonus + 1)
                      ((oslice ln.offsets o (l + 1)).getD p.1 0)
                      ((oslice ln.offsets o (l + 1)).getD (p.1 + 1) 0 -
                        (oslice ln.offsets o (l + 1)).getD p.1 0)
                  else pure ([par + bonus], [cur])) = .ok tl →
                x ∈ hd.1 ++ (tl.map Prod.fst).flatten →
                (∀ y ∈ hd.1, y ≤ cur + bonus + (ln.is_optional.toNat + 1 + max_level rest)) →
                x ≤ cur + bonus + (ln.is_optional.toNat + 1 + max_level rest) := by
              intro hd tl htl hx hhd
              rcases mem_combined_fst hx with hx | ⟨pr, hpr, hxp⟩
              · exact hhd x hx
              · obtain ⟨i, _, hfi⟩ := mapE_ok_mem htl pr hpr
                obtain ⟨p1, p2⟩ := pr
                split at hfi
                · have := ih hvr _ _ _ _ _ _ _ (Nat.le_add_right _ _) hfi x hxp
                  omega
                · have := except_pure_ok hfi
                  injection this with h1 h2
                  subst h1
                  rcases List.mem_singleton.1 hxp with rfl
                  omega
            cases b with
            | true =>
              simp only [if_pos rfl] at h
              obtain ⟨hd, hhd, h2⟩ := except_bind_ok h
              obtain ⟨tl, htl, hout⟩ := except_bind_ok h2
              rw [combine2_fst_of_pure_ok hout] at hx
              obtain ⟨d1, r1⟩ := hd
              refine hrest _ tl htl hx ?_
              intro y hy
              have := ih hvr _ _ _ _ _ _ _ (hpc.trans (Nat.le_add_right _ _)) hhd y hy
              omega
            | false =>
              simp only [Bool.false_eq_true, if_false] at h
              obtain ⟨hd, hhd, h2⟩ := except_bind_ok h
              obtain ⟨tl, htl, hout⟩ := except_bind_ok h2
              rw [combine2_fst_of_pure_ok hout] at hx
              obtain ⟨d1, r1⟩ := hd
              refine hrest _ tl htl hx ?_
              intro y hy
              have := except_pure_ok hhd
              injection this with h1 h2
              subst h1
              rcases List.mem_singleton.1 hy with rfl
              omega
    | struct v io len =>
      have hvr : validity_implies_optional rest = true := by
        simpa [validity_implies_optional] using hv
      rw [max_level_struct]
      by_cases hl : l = 0
      · simp only [to_levels_recursive, hl, reduceIte] at h
        have := except_pure_ok h
        injection this with h1 h2
        subst h1
        rcases List.mem_singleton.1 hx with rfl
        omega
      · simp only [to_levels_recursive, hl, reduceIte] at h
        rcases v with _ | bm
        · obtain ⟨hd, hhd, h2⟩ := except_bind_ok h
          obtain ⟨tl, htl, hout⟩ := except_bind_ok h2
          rw [combine2_fst_of_pure_ok hout] at hx
          rcases mem_combined_fst hx with hx | ⟨pr, hpr, hxp⟩
          · obtain ⟨d1, r1⟩ := hd
            have := ih hvr _ _ _ _ _ _ _ (hpc.trans (Nat.le_add_right _ _)) hhd x hx
            omega
          · obtain ⟨i, _, hfi⟩ := mapE_ok_mem htl pr hpr
            obtain ⟨p1, p2⟩ := pr
            have := ih hvr _ _ _ _ _ _ _ (Nat.le_add_right _ _) hfi x hxp
            omega
        · rcases hbm : bm with _ | ⟨b, bs⟩ <;> simp only [hbm] at h
          · have := except_pure_ok h
            injection this with h1 h2
            subst h1
            rcases List.mem_singleton.1 hx with rfl
            omega
          · have hrest : ∀ (hd : List Nat × List Nat) tl,
                mapE bs.enum (fun p =>
                  if p.2 = true then
                    to_levels_recursive rest (cur + io.toNat) cur bonus (o + p.1 + 1) 1
                  else pure ([par + bonus], [cur])) = .ok tl →
                x ∈ hd.1 ++ (tl.map Prod.fst).flatten →
                (∀ y ∈ hd.1, y ≤ cur + bonus + (io.toNat + max_level rest)) →
                x ≤ cur + bonus + (io.toNat + max_level rest) := by
              intro hd tl htl hx hhd
              rcases mem_combined_fst hx with hx | ⟨pr, hpr, hxp⟩
              · exact hhd x hx
              · obtain ⟨i, _, hfi⟩ := mapE_ok_mem htl pr hpr
                obtain ⟨p1, p2⟩ := pr
                split at hfi
                · have := ih hvr _ _ _ _ _ _ _ (Nat.le_add_right _ _) hfi x hxp
                  omega
                · have := except_pure_ok hfi
                  injection this with h1 h2
                  subst h1
                  rcases List.mem_singleton.1 hxp with rfl
                  omega
            cases b with
            | true =>
              simp only [if_pos rfl] at h
              obtain ⟨hd, hhd, h2⟩ := except_bind_ok h
              obtain ⟨tl, htl, hout⟩ := except_bind_ok h2
              rw [combine2_fst_of_pure_ok hout] at hx
              obtain ⟨d1, r1⟩ := hd
              refine hrest _ tl htl hx ?_
              intro y hy
              have := ih hvr _ _ _ _ _ _ _ (hpc.trans (Nat.le_add_right _ _)) hhd y hy
              omega
            | false =>
              simp only [Bool.false_eq_true, if_false] at h
              obtain ⟨hd, hhd, h2⟩ := except_bind_ok h
              obtain ⟨tl, htl, hout⟩ := except_bind_ok h2
              rw [combine2_fst_of_pure_ok hout] at hx
              obtain ⟨d1, r1⟩ := hd
              refine hrest _ tl htl hx ?_
              intro y hy
              have := except_pure_ok hhd
              injection this with h1 h2
              subst h1
              rcases List.mem_singleton.1 hy with rfl
              omega
    | fixedSizeList v io w len =>
      have hvr : validity_implies_optional rest = true := by
        simpa [validity_implies_optional] using hv
      rw [max_level_fixedSizeList]
      by_cases hl : l = 0
      · simp only [to_levels_recursive, hl, reduceIte] at h
        have := except_pure_ok h
        injection this with h1 h2
        subst h1
        rcases List.mem_singleton.1 hx with rfl
        omega
      · simp only [to_levels_recursive, hl, reduceIte] at h
        rcases v with _ | bm
        · obtain ⟨hd, hhd, h2⟩ := except_bind_ok h
          obtain ⟨tl, htl, hout⟩ := except_bind_ok h2
          rw [combine2_fst_of_pure_ok hout] at hx
          rcases mem_combined_fst hx with hx | ⟨pr, hpr, hxp⟩
          · obtain ⟨d1, r1⟩ := hd
            have := ih hvr _ _ _ _ _ _ _ (hpc.trans (Nat.le_add_right _ _)) hhd x hx
            omega
          · obtain ⟨i, _, hfi⟩ := mapE_ok_mem htl pr hpr
            obtain ⟨p1, p2⟩ := pr
            have := ih hvr _ _ _ _ _ _ _ (Nat.le_add_right _ _) hfi x hxp
            omega
        · rcases hsb : bslice bm o l with _ | ⟨b, bs⟩ <;> simp only [hsb] at h
          · exact absurd h (by simp)
          · have hrest : ∀ (hd : List Nat × List Nat) tl,
                mapE bs.enum (fun p =>
                  if p.2 = true then
                    to_levels_recursive rest (cur + io.toNat) cur (bonus + 1)
                      (w * (p.1 + 1)) w
                  else pure ([par + bonus], [cur])) = .ok tl →
                x ∈ hd.1 ++ (tl.map Prod.fst).flatten →
                (∀ y ∈ hd.1, y ≤ cur + bonus + (io.toNat + 1 + max_level rest)) →
                x ≤ cur + bonus + (io.toNat + 1 + max_level rest) := by
              intro hd tl htl hx hhd
              rcases mem_combined_fst hx with hx | ⟨pr, hpr, hxp⟩
              · exact hhd x hx
              · obtain ⟨i, _, hfi⟩ := mapE_ok_mem htl pr hpr
                obtain ⟨p1, p2⟩ := pr
                split at hfi
                · have := ih hvr _ _ _ _ _ _ _ (Nat.le_add_right _ _) hfi x hxp
                  omega
                · have := except_pure_ok hfi
                  injection this with h1 h2
                  subst h1
                  rcases List.mem_singleton.1 hxp with rfl
                  omega
            cases b with
            | true =>
              simp only [if_pos rfl] at h
              obtain ⟨hd, hhd, h2⟩ := except_bind_ok h
              obtain ⟨tl, htl, hout⟩ := except_bind_ok h2
              rw [combine2_fst_of_pure_ok hout] at hx
              obtain ⟨d1, r1⟩ := hd
              refine hrest _ tl htl hx ?_
              intro y hy
              have := ih hvr _ _ _ _ _ _ _ (hpc.trans (Nat.le_add_right _ _)) hhd y hy
              omega
            | false =>
              simp only [Bool.false_eq_true, if_false] at h
              obtain ⟨hd, hhd, h2⟩ := except_bind_ok h
              obtain ⟨tl, htl, hout⟩ := except_bind_ok h2
              rw [combine2_fst_of_pure_ok hout] at hx
              obtain ⟨d1, r1⟩ := hd
              refine hrest _ tl htl hx ?_
              intro y hy
              have := except_pure_ok hhd
              injection this with h1 h2
              subst h1
              rcases List.mem_singleton.1 hy with rfl
              omega



/-- Claim C4 (amended): provided the path is schema-consistent (a primitive leaf
carrying a validity bitmap is marked optional — without this the claim fails, see
the counterexample), every definition level produced by `calculate_def_levels` and
by `to_levels` is at most `max_level`, the sum of the per-node contributions
(`is_optional + 1` for list kinds, `is_optional` for structs and the leaf); the
lower bound `0` holds since levels are naturals. -/
theorem def_levels_bounded (nested : List Nested)
    (hv : validity_implies_optional nested = true) :
    (∀ d, calculate_def_levels nested = .ok d → ∀ x ∈ d, x ≤ max_level nested) ∧
    (∀ d r, to_levels nested = .ok (d, r) → ∀ x ∈ d, x ≤ max_level nested) := by
  constructor
  · intro d h x hx
    cases nested with
    | nil =>
      cases except_pure_ok (by simpa [calculate_def_levels] using h)
      simp at hx
    | cons n rest =>
      have hd : d = def_levels_recursive (n :: rest) 0 0 n.len := by
        have := except_pure_ok (by simpa [calculate_def_levels] using h)
        exact this.symm
      subst hd
      simpa using def_levels_le _ hv 0 0 n.len x hx
  · intro d r h x hx
    cases nested with
    | nil =>
      have := except_pure_ok (by simpa [to_levels] using h)
      injection this with h1 h2
      subst h1
      simp at hx
    | cons n rest =>
      have h' : to_levels_recursive (n :: rest) 0 0 0 0 n.len = .ok (d, r) := by
        simpa [to_levels] using h
      simpa using to_levels_def_le _ hv 0 0 0 0 n.len d r (le_refl 0) h' x hx

/-- Witness for `def_levels_bounded` at the `struct_optional` test path: the first
computed definition level `2` is within `max_level = 2`. -/
theorem def_levels_bounded_witness :
    (2 : Nat) ≤ max_level [.struct none true 10,
      .primitive (some [true, false, true, true, false, true, false, false, true, true])
        true 10] :=
  (def_levels_bounded _ (by decide)).1 [2, 1, 2, 2, 1, 2, 1, 1, 2, 2] (by decide) 2 (by decide)


/-- Claim C6 (amended): when a list-kind node's validity window is exhausted before
the first outer position (an empty available bitmap with positive declared length),
`calculate_rep_levels` and `to_levels` report the structured error "Validity bitmap
should not be empty"; `calculate_def_levels` performs no such check (see the
counterexample, which shows it returning `Ok`). -/
theorem empty_validity_window_errors :
    (∀ (ln : ListNested) (rest : List Nested), ln.validity = some [] →
        0 < (Nested.list ln).len →
        calculate_rep_levels (.list ln :: rest) = .error validityErr ∧
        to_levels (.list ln :: rest) = .error validityErr) ∧
    (∀ (ln : ListNested) (rest : List Nested), ln.validity = some [] →
        0 < (Nested.largeList ln).len →
        calculate_rep_levels (.largeList ln :: rest) = .error validityErr ∧
        to_levels (.largeList ln :: rest) = .error validityErr) ∧
    (∀ (io : Bool) (w len : Nat) (rest : List Nested), 0 < len →
        calculate_rep_levels (.fixedSizeList (some []) io w len :: rest) =
          .error validityErr ∧
        to_levels (.fixedSizeList (some []) io w len :: rest) = .error validityErr) := by
  refine ⟨fun ln rest hv hl => ⟨?_, ?_⟩, fun ln rest hv hl => ⟨?_, ?_⟩,
    fun io w len rest hl => ⟨?_, ?_⟩⟩ <;>
    simp only [Nested.len] at hl
  · simp [calculate_rep_levels, rep_levels_recursive, Nested.len, Nat.pos_iff_ne_zero.mp hl,
      rep_levels_list, hv, bslice]
  · simp [to_levels, to_levels_recursive, Nested.len, to_levels_list,
      Nat.pos_iff_ne_zero.mp hl, hv]
  · simp [calculate_rep_levels, rep_levels_recursive, Nested.len, Nat.pos_iff_ne_zero.mp hl,
      rep_levels_list, hv, bslice]
  · simp [to_levels, to_levels_recursive, Nested.len, to_levels_list,
      Nat.pos_iff_ne_zero.mp hl, hv]
  · simp [calculate_rep_levels, rep_levels_recursive, Nested.len, Nat.pos_iff_ne_zero.mp hl,
      bslice]
  · simp [to_levels, to_levels_recursive, Nested.len, Nat.pos_iff_ne_zero.mp hl, bslice]

/-- Witness for `empty_validity_window_errors` at a concrete path: a length-1
optional list with an empty validity bitmap over an optional primitive. -/
theorem empty_validity_window_errors_witness :
    calculate_rep_levels [.list ⟨true, [0, 1], some []⟩, .primitive none true 1] =
      .error validityErr ∧
    to_levels [.list ⟨true, [0, 1], some []⟩, .primitive none true 1] =
      .error validityErr :=
  empty_validity_window_errors.1 ⟨true, [0, 1], some []⟩ [.primitive none true 1]
    rfl (by decide)

theorem getD_oslice (off : List Nat) (o l i : Nat) (h : i < l) :
    (oslice off o l).getD i 0 = off.getD (o + i) 0 := by
  simp [oslice, List.getD_eq_getElem?_getD, List.getElem?_take, h, List.getElem?_drop]

theorem win_count_zero : ∀ (nested : List Nested) (o : Nat), win_count nested o 0 = 0 := by
  intro nested
  induction nested with
  | nil => intro o; simp [win_count]
  | cons node rest ih =>
    intro o
    cases node <;> simp [win_count, ih]

theorem win_count_add : ∀ (nested : List Nested), wf_path nested = true →
    ∀ o a b, win_count nested o (a + b) = win_count nested o a + win_count nested (o + a) b := by
  intro nested
  induction nested with
  | nil => intro h; simp [wf_path] at h
  | cons node rest ih =>
    intro hwf o a b
    cases node with
    | primitive v io len => simp [win_count]
    | list ln =>
      have hwr : wf_path rest = true := by
        simp only [wf_path, Bool.and_eq_true] at hwf
        exact hwf.2
      simp only [win_count, List.range_add, List.map_append, List.sum_append, List.map_map]
      congr 1
      congr 1
      refine List.map_congr_left (fun i _ => ?_)
      simp only [Function.comp_apply, Nat.add_assoc]
    | largeList ln =>
      have hwr : wf_path rest = true := by
        simp only [wf_path, Bool.and_eq_true] at hwf
        exact hwf.2
      simp only [win_count, List.range_add, List.map_append, List.sum_append, List.map_map]
      congr 1
      congr 1
      refine List.map_congr_left (fun i _ => ?_)
      simp only [Function.comp_apply, Nat.add_assoc]
    | struct v io len =>
      have hwr : wf_path rest = true := by
        simp only [wf_path, Bool.and_eq_true] at hwf
        exact hwf.2
      simp [win_count, ih hwr]
    | fixedSizeList v io w len => simp [wf_path] at hwf



theorem length_flatMap {α : Type} (f : α → List Nat) :
    ∀ (l : List α), (l.flatMap f).length = (l.map (fun a => (f a).length)).sum := by
  intro l
  induction l with
  | nil => simp
  | cons a as ihl => simp [ihl]

theorem win_count_sum_ones (rest : List Nested) (hwf : wf_path rest = true) :
    ∀ (l o : Nat), ((List.range l).map (fun i => win_count rest (o + i) 1)).sum =
      win_count rest o l := by
  intro l
  induction l with
  | zero => intro o; simp [win_count_zero]
  | succ l ihl =>
    intro o
    rw [List.range_succ, List.map_append, List.sum_append]
    simp only [List.map_cons, List.map_nil, List.sum_cons, List.sum_nil]
    rw [ihl o, win_count_add rest hwf o l 1]
    omega

theorem def_len_eq_win : ∀ (nested : List Nested), wf_path nested = true →
    no_validity nested = true → ∀ cur o l,
      (def_levels_recursive nested cur o l).length = win_count nested o l := by
  intro nested
  induction nested with
  | nil => intro h; simp [wf_path] at h
  | cons node rest ih =>
    intro hwf hnv cur o l
    cases node with
    | primitive v io len =>
      have hvn : v = none := by
        simp only [no_validity, Bool.and_eq_true, Option.isNone_iff_eq_none] at hnv
        exact hnv.1
      subst hvn
      simp [def_levels_recursive, win_count]
    | list ln =>
      have hvn : ln.validity = none := by
        simp only [no_validity, Bool.and_eq_true, Option.isNone_iff_eq_none] at hnv
        exact hnv.1
      have hnvr : no_validity rest = true := by
        simp only [no_validity, Bool.and_eq_true] at hnv
        exact hnv.2
      have hwr : wf_path rest = true := by
        simp only [wf_path, Bool.and_eq_true] at hwf
        exact hwf.2
      simp only [def_levels_recursive, def_levels_list, hvn]
      rw [length_flatMap]
      simp only [win_count]
      congr 1
      refine List.map_congr_left (fun i hi => ?_)
      have hil : i < l := List.mem_range.1 hi
      rw [getD_oslice ln.offsets o (l + 1) (i + 1) (by omega),
        getD_oslice ln.offsets o (l + 1) i (by omega)]
      simp only [← Nat.add_assoc]
      split
      · simp
      · exact ih hwr hnvr _ _ _
    | largeList ln =>
      have hvn : ln.validity = none := by
        simp only [no_validity, Bool.and_eq_true, Option.isNone_iff_eq_none] at hnv
        exact hnv.1
      have hnvr : no_validity rest = true := by
        simp only [no_validity, Bool.and_eq_true] at hnv
        exact hnv.2
      have hwr : wf_path rest = true := by
        simp only [wf_path, Bool.and_eq_true] at hwf
        exact hwf.2
      simp only [def_levels_recursive, def_levels_list, hvn]
      rw [length_flatMap]
      simp only [win_count]
      congr 1
      refine List.map_congr_left (fun i hi => ?_)
      have hil : i < l := List.mem_range.1 hi
      rw [getD_oslice ln.offsets o (l + 1) (i + 1) (by omega),
        getD_oslice ln.offsets o (l + 1) i (by omega)]
      simp only [← Nat.add_assoc]
      split
      · simp
      · exact ih hwr hnvr _ _ _
    | struct v io len =>
      have hvn : v = none := by
        simp only [no_validity, Bool.and_eq_true, Option.isNone_iff_eq_none] at hnv
        exact hnv.1
      subst hvn
      have hnvr : no_validity rest = true := by
        simp only [no_validity, Bool.and_eq_true] at hnv
        exact hnv.2
      have hwr : wf_path rest = true := by
        simp only [wf_path, Bool.and_eq_true] at hwf
        exact hwf.2
      simp only [def_levels_recursive, win_count]
      rw [length_flatMap]
      rw [← win_count_sum_ones rest hwr l o]
      congr 1
      refine List.map_congr_left (fun i hi => ?_)
      exact ih hwr hnvr _ _ _
    | fixedSizeList v io w len => simp [wf_path] at hwf

theorem rep_zero_length (nested : List Nested) (cur par o : Nat) :
    rep_levels_recursive nested cur par o 0 = .ok [par] := by
  cases nested <;> rfl

theorem mapE_ok_lengths {α : Type} {f : α → Except String (List Nat)} {g : α → Nat} :
    ∀ {l : List α}, (∀ a ∈ l, ∃ b, f a = .ok b ∧ b.length = g a) →
      ∃ out, mapE l f = .ok out ∧ (out.map List.length).sum = (l.map g).sum := by
  intro l
  induction l with
  | nil => exact fun _ => ⟨[], rfl, rfl⟩
  | cons a as ihl =>
    intro h
    obtain ⟨b, hb, hlb⟩ := h a (List.mem_cons_self a as)
    obtain ⟨out, hout, hsum⟩ := ihl (fun x hx => h x (List.mem_cons_of_mem a hx))
    refine ⟨b :: out, ?_, ?_⟩
    · simp only [mapE, hb, hout]
      rfl
    · simp [hlb, hsum]

theorem rep_len_eq_win : ∀ (nested : List Nested), wf_path nested = true →
    no_validity nested = true → ∀ cur par o l, 0 < l →
      ∃ out, rep_levels_recursive nested cur par o l = .ok out ∧
        out.length = win_count nested o l := by
  intro nested
  induction nested with
  | nil => intro h; simp [wf_path] at h
  | cons node rest ih =>
    intro hwf hnv cur par o l hl
    have hlne : ¬ (l = 0) := by omega
    cases node with
    | primitive v io len =>
      refine ⟨par :: List.replicate (l - 1) cur, ?_, ?_⟩
      · simp only [rep_levels_recursive, if_neg hlne]
        rfl
      · simp [win_count]
        omega
    | list ln =>
      have hvn : ln.validity = none := by
        simp only [no_validity, Bool.and_eq_true, Option.isNone_iff_eq_none] at hnv
        exact hnv.1
      have hnvr : no_validity rest = true := by
        simp only [no_validity, Bool.and_eq_true] at hnv
        exact hnv.2
      have hwr : wf_path rest = true := by
        simp only [wf_path, Bool.and_eq_true] at hwf
        exact hwf.2
      -- abbreviations matching the code
      have hterm : ∀ i, i < l →
          ∃ b, rep_levels_recursive rest (cur + ln.is_optional.toNat)
              (if i = 0 then par else cur)
              ((oslice ln.offsets o (l + 1)).getD i 0 - ln.offsets.headD 0)
              ((oslice ln.offsets o (l + 1)).getD (i + 1) 0 -
                (oslice ln.offsets o (l + 1)).getD i 0) = .ok b ∧
            b.length = (if ln.offsets.getD (o + i + 1) 0 - ln.offsets.getD (o + i) 0 = 0
              then 1
              else win_count rest (ln.offsets.getD (o + i) 0 - ln.offsets.headD 0)
                (ln.offsets.getD (o + i + 1) 0 - ln.offsets.getD (o + i) 0)) := by
        intro i hil
        rw [getD_oslice ln.offsets o (l + 1) (i + 1) (by omega),
          getD_oslice ln.offsets o (l + 1) i (by omega)]
        simp only [← Nat.add_assoc]
        by_cases hz : ln.offsets.getD (o + i + 1) 0 - ln.offsets.getD (o + i) 0 = 0
        · rw [hz]
          refine ⟨_, rep_zero_length rest _ _ _, ?_⟩
          simp
        · obtain ⟨b, hb, hlb⟩ := ih hwr hnvr (cur + ln.is_optional.toNat)
            (if i = 0 then par else cur)
            (ln.offsets.getD (o + i) 0 - ln.offsets.headD 0)
            (ln.offsets.getD (o + i + 1) 0 - ln.offsets.getD (o + i) 0) (by omega)
          refine ⟨b, hb, ?_⟩
          rw [hlb, if_neg hz]
      obtain ⟨b0, hb0, hlb0⟩ := hterm 0 hl
      have htl : ∀ i ∈ List.range' 1 (l - 1),
          ∃ b, rep_levels_recursive rest (cur + ln.is_optional.toNat) cur
              ((oslice ln.offsets o (l + 1)).getD i 0 - ln.offsets.headD 0)
              ((oslice ln.offsets o (l + 1)).getD (i + 1) 0 -
                (oslice ln.offsets o (l + 1)).getD i 0) = .ok b ∧
            b.length = (if ln.offsets.getD (o + i + 1) 0 - ln.offsets.getD (o + i) 0 = 0
              then 1
              else win_count rest (ln.offsets.getD (o + i) 0 - ln.offsets.headD 0)
                (ln.offsets.getD (o + i + 1) 0 - ln.offsets.getD (o + i) 0)) := by
        intro i hi
        have hmem := List.mem_range'_1.1 hi
        have hine : ¬ (i = 0) := by omega
        have := hterm i (by omega)
        rw [if_neg hine] at this
        exact this
      obtain ⟨outs, houts, hsums⟩ := mapE_ok_lengths htl
      refine ⟨b0 ++ outs.flatten, ?_, ?_⟩
      · simp only [rep_levels_recursive, hlne, reduceIte, rep_levels_list, hvn]
        rw [if_pos rfl] at hb0
        rw [hb0, houts]
        rfl
      · rw [List.length_append, List.length_flatten, hlb0, hsums]
        simp only [win_count]
        have hsplit : List.range l = 0 :: List.range' 1 (l - 1) := by
          rw [List.range_eq_range']
          cases l with
          | zero => omega
          | succ k => simp [List.range'_succ]
        rw [hsplit]
        simp
    | largeList ln =>
      have hvn : ln.validity = none := by
        simp only [no_validity, Bool.and_eq_true, Option.isNone_iff_eq_none] at hnv
        exact hnv.1
      have hnvr : no_validity rest = true := by
        simp only [no_validity, Bool.and_eq_true] at hnv
        exact hnv.2
      have hwr : wf_path rest = true := by
        simp only [wf_path, Bool.and_eq_true] at hwf
        exact hwf.2
      have hterm : ∀ i, i < l →
          ∃ b, rep_levels_recursive rest (cur + ln.is_optional.toNat)
              (if i = 0 then par else cur)
              ((oslice ln.offsets o (l + 1)).getD i 0 - ln.offsets.headD 0)
              ((oslice ln.offsets o (l + 1)).getD (i + 1) 0 -
                (oslice ln.offsets o (l + 1)).getD i 0) = .ok b ∧
            b.length = (if ln.offsets.getD (o + i + 1) 0 - ln.offsets.getD (o + i) 0 = 0
              then 1
              else win_count rest (ln.offsets.getD (o + i) 0 - ln.offsets.headD 0)
                (ln.offsets.getD (o + i + 1) 0 - ln.offsets.getD (o + i) 0)) := by
        intro i hil
        rw [getD_oslice ln.offsets o (l + 1) (i + 1) (by omega),
          getD_oslice ln.offsets o (l + 1) i (by omega)]
        simp only [← Nat.add_assoc]
        by_cases hz : ln.offsets.getD (o + i + 1) 0 - ln.offsets.getD (o + i) 0 = 0
        · rw [hz]
          refine ⟨_, rep_zero_length rest _ _ _, ?_⟩
          simp
        · obtain ⟨b, hb, hlb⟩ := ih hwr hnvr (cur + ln.is_optional.toNat)
            (if i = 0 then par else cur)
            (ln.offsets.getD (o + i) 0 - ln.offsets.headD 0)
            (ln.offsets.getD (o + i + 1) 0 - ln.offsets.getD (o + i) 0) (by omega)
          refine ⟨b, hb, ?_⟩
          rw [hlb, if_neg hz]
      obtain ⟨b0, hb0, hlb0⟩ := hterm 0 hl
      have htl : ∀ i ∈ List.range' 1 (l - 1),
          ∃ b, rep_levels_recursive rest (cur + ln.is_optional.toNat) cur
              ((oslice ln.offsets o (l + 1)).getD i 0 - ln.offsets.headD 0)
              ((oslice ln.offsets o (l + 1)).getD (i + 1) 0 -
                (oslice ln.offsets o (l + 1)).getD i 0) = .ok b ∧
            b.length = (if ln.offsets.getD (o + i + 1) 0 - ln.offsets.getD (o + i) 0 = 0
              then 1
              else win_count rest (ln.offsets.getD (o + i) 0 - ln.offsets.headD 0)
                (ln.offsets.getD (o + i + 1) 0 - ln.offsets.getD (o + i) 0)) := by
        intro i hi
        have hmem := List.mem_range'_1.1 hi
        have hine : ¬ (i = 0) := by omega
        have := hterm i (by omega)
        rw [if_neg hine] at this
        exact this
      obtain ⟨outs, houts, hsums⟩ := mapE_ok_lengths htl
      refine ⟨b0 ++ outs.flatten, ?_, ?_⟩
      · simp only [rep_levels_recursive, hlne, reduceIte, rep_levels_list, hvn]
        rw [if_pos rfl] at hb0
        rw [hb0, houts]
        rfl
      · rw [List.length_append, List.length_flatten, hlb0, hsums]
        simp only [win_count]
        have hsplit : List.range l = 0 :: List.range' 1 (l - 1) := by
          rw [List.range_eq_range']
          cases l with
          | zero => omega
          | succ k => simp [List.range'_succ]
        rw [hsplit]
        simp
    | struct v io len =>
      have hvn : v = none := by
        simp only [no_validity, Bool.and_eq_true, Option.isNone_iff_eq_none] at hnv
        exact hnv.1
      subst hvn
      have hnvr : no_validity rest = true := by
        simp only [no_validity, Bool.and_eq_true] at hnv
        exact hnv.2
      have hwr : wf_path rest = true := by
        simp only [wf_path, Bool.and_eq_true] at hwf
        exact hwf.2
      obtain ⟨b0, hb0, hlb0⟩ := ih hwr hnvr cur par o 1 (by omega)
      by_cases h1l : l > 1
      · obtain ⟨b1, hb1, hlb1⟩ := ih hwr hnvr cur cur (o + 1) (l - 1) (by omega)
        refine ⟨b0 ++ b1, ?_, ?_⟩
        · simp only [rep_levels_recursive, hlne, reduceIte, hb0, if_pos h1l, hb1]
          rfl
        · rw [List.length_append, hlb0, hlb1]
          simp only [win_count]
          have h1e : l = 1 + (l - 1) := by omega
          rw [h1e, win_count_add rest hwr o 1 (l - 1)]
          have h11 : 1 + (l - 1) - 1 = l - 1 := by omega
          rw [h11]
      · have hl1 : l = 1 := by omega
        subst hl1
        refine ⟨b0 ++ [], ?_, ?_⟩
        · simp only [rep_levels_recursive, hlne, reduceIte, hb0]
          rfl
        · simpa [win_count] using hlb0
    | fixedSizeList v io w len => simp [wf_path] at hwf



theorem headD_eq_getD_zero (off : List Nat) : off.headD 0 = off.getD 0 0 := by
  cases off <;> rfl

theorem mono_offsets_chain : ∀ (off : List Nat),
    mono_offsets off = true ↔ List.Chain' (· ≤ ·) off
  | [] => by simp [mono_offsets]
  | [a] => by simp [mono_offsets]
  | a :: b :: rest => by
      rw [mono_offsets]
      simp [List.chain'_cons, mono_offsets_chain (b :: rest)]

theorem chain_getD_mono {off : List Nat} (h : List.Chain' (· ≤ ·) off) :
    ∀ i j, i ≤ j → j < off.length → off.getD i 0 ≤ off.getD j 0 := by
  intro i j hij hj
  rcases Nat.eq_or_lt_of_le hij with rfl | hlt
  · exact le_refl _
  · have hp := List.chain'_iff_pairwise.mp h
    have hij' := List.pairwise_iff_getElem.mp hp i j (by omega) hj hlt
    rw [List.getD_eq_getElem?_getD, List.getD_eq_getElem?_getD,
      List.getElem?_eq_getElem (show i < off.length by omega),
      List.getElem?_eq_getElem hj]
    simpa using hij'

theorem sum_map_add {α : Type} (f g : α → Nat) (l : List α) :
    (l.map (fun a => f a + g a)).sum = (l.map f).sum + (l.map g).sum := by
  induction l with
  | nil => simp
  | cons a as ihl =>
    simp [List.map_cons, List.sum_cons, ihl]
    omega

theorem length_filter_eq_sum_ite {α : Type} (p : α → Bool) :
    ∀ (xs : List α), (xs.filter p).length = (xs.map (fun x => if p x then 1 else 0)).sum := by
  intro xs
  induction xs with
  | nil => simp
  | cons a as ihl =>
    by_cases hp : p a
    · simp [List.filter_cons, hp, ihl]
      omega
    · simp [List.filter_cons, hp, ihl]

theorem win_runs_telescope (rest : List Nested) (hwr : wf_path rest = true) (off : List Nat)
    (hch : List.Chain' (· ≤ ·) off) :
    ∀ (L o : Nat), o + L < off.length →
      ((List.range L).map (fun i =>
        win_count rest (off.getD (o + i) 0 - off.headD 0)
          (off.getD (o + i + 1) 0 - off.getD (o + i) 0))).sum =
      win_count rest (off.getD o 0 - off.headD 0) (off.getD (o + L) 0 - off.getD o 0) := by
  intro L
  induction L with
  | zero =>
    intro o _
    simp [win_count_zero]
  | succ L ihL =>
    intro o hoL
    rw [List.range_succ, List.map_append, List.sum_append]
    simp only [List.map_cons, List.map_nil, List.sum_cons, List.sum_nil, Nat.add_zero]
    rw [ihL o (by omega)]
    have hm1 : off.getD 0 0 ≤ off.getD o 0 :=
      chain_getD_mono hch 0 o (by omega) (by omega)
    have hm2 : off.getD o 0 ≤ off.getD (o + L) 0 :=
      chain_getD_mono hch o (o + L) (by omega) (by omega)
    have hm3 : off.getD (o + L) 0 ≤ off.getD (o + L + 1) 0 :=
      chain_getD_mono hch (o + L) (o + L + 1) (by omega) (by omega)
    have hcomb := win_count_add rest hwr (off.getD o 0 - off.headD 0)
      (off.getD (o + L) 0 - off.getD o 0)
      (off.getD (o + L + 1) 0 - off.getD (o + L) 0)
    rw [headD_eq_getD_zero] at hcomb ⊢
    have he1 : off.getD (o + L) 0 - off.getD o 0 +
        (off.getD (o + L + 1) 0 - off.getD (o + L) 0) =
        off.getD (o + (L + 1)) 0 - off.getD o 0 := by
      have : o + (L + 1) = o + L + 1 := by omega
      rw [this]
      omega
    have he2 : off.getD o 0 - off.getD 0 0 + (off.getD (o + L) 0 - off.getD o 0) =
        off.getD (o + L) 0 - off.getD 0 0 := by omega
    rw [he1, he2] at hcomb
    exact hcomb.symm

theorem wf_ne_nil {nested : List Nested} (h : wf_path nested = true) : nested ≠ [] := by
  intro he
  subst he
  simp [wf_path] at h

theorem num_values_cons_list (ln : ListNested) (r0 : Nested) (rs : List Nested) :
    num_values (.list ln :: r0 :: rs) =
      ((to_length ln.offsets).filter (fun l => l = 0)).length + num_values (r0 :: rs) := by
  simp [num_values, List.getLast?_cons_cons]
  omega

theorem num_values_cons_largeList (ln : ListNested) (r0 : Nested) (rs : List Nested) :
    num_values (.largeList ln :: r0 :: rs) =
      ((to_length ln.offsets).filter (fun l => l = 0)).length + num_values (r0 :: rs) := by
  simp [num_values, List.getLast?_cons_cons]
  omega

theorem num_values_cons_struct (v : Option (List Bool)) (io : Bool) (len : Nat)
    (r0 : Nested) (rs : List Nested) :
    num_values (.struct v io len :: r0 :: rs) = num_values (r0 :: rs) := by
  simp [num_values, List.getLast?_cons_cons]

theorem getD_last (off : List Nat) :
    off.getD (off.length - 1) 0 = off.getLastD 0 := by
  rw [List.getD_eq_getElem?_getD, List.getLastD_eq_getLast?, List.getLast?_eq_getElem?]



theorem win_eq_num_values : ∀ (nested : List Nested), wf_path nested = true →
    win_count nested 0 (head_len nested) = num_values nested := by
  intro nested
  induction nested with
  | nil => intro h; simp [wf_path] at h
  | cons node rest ih =>
    intro hwf
    cases node with
    | primitive v io len =>
      cases rest with
      | nil => simp [win_count, head_len, num_values, Nested.len]
      | cons r rs => simp [wf_path] at hwf
    | list ln =>
      have hparts : List.Chain' (· ≤ ·) ln.offsets ∧ ln.offsets ≠ [] ∧
          ln.offsets.getLastD 0 - ln.offsets.headD 0 = head_len rest ∧
          wf_path rest = true := by
        simp only [wf_path, Bool.and_eq_true, decide_eq_true_eq] at hwf
        exact ⟨(mono_offsets_chain _).mp hwf.1.1.1, hwf.1.1.2, hwf.1.2, hwf.2⟩
      obtain ⟨hch, hne, hcov, hwr⟩ := hparts
      have hlen : 0 < ln.offsets.length := List.length_pos.mpr hne
      obtain ⟨r0, rs, hrest⟩ : ∃ r0 rs, rest = r0 :: rs := by
        cases rest with
        | nil => exact absurd rfl (wf_ne_nil hwr)
        | cons r0 rs => exact ⟨r0, rs, rfl⟩
      simp only [win_count, head_len, Nested.len]
      have hsplit : ∀ i ∈ List.range (ln.offsets.length - 1),
          (if ln.offsets.getD (0 + i + 1) 0 - ln.offsets.getD (0 + i) 0 = 0 then 1
            else win_count rest (ln.offsets.getD (0 + i) 0 - ln.offsets.headD 0)
              (ln.offsets.getD (0 + i + 1) 0 - ln.offsets.getD (0 + i) 0)) =
          win_count rest (ln.offsets.getD (0 + i) 0 - ln.offsets.headD 0)
              (ln.offsets.getD (0 + i + 1) 0 - ln.offsets.getD (0 + i) 0) +
           (if ln.offsets.getD (0 + i + 1) 0 - ln.offsets.getD (0 + i) 0 = 0 then 1
            else 0) := by
        intro i _
        by_cases hz : ln.offsets.getD (0 + i + 1) 0 - ln.offsets.getD (0 + i) 0 = 0
        · rw [if_pos hz, if_pos hz, hz, win_count_zero]
        · rw [if_neg hz, if_neg hz]
          omega
      rw [List.map_congr_left hsplit, sum_map_add,
        win_runs_telescope rest hwr ln.offsets hch (ln.offsets.length - 1) 0 (by omega)]
      have hz0 : ln.offsets.getD 0 0 - ln.offsets.headD 0 = 0 := by
        rw [headD_eq_getD_zero]
        omega
      have hlast : ln.offsets.getD (0 + (ln.offsets.length - 1)) 0 - ln.offsets.getD 0 0 =
          head_len rest := by
        rw [Nat.zero_add, getD_last, ← headD_eq_getD_zero]
        exact hcov
      rw [hz0, hlast, ih hwr, hrest, num_values_cons_list]
      have hzc : ((to_length ln.offsets).filter (fun l => l = 0)).length =
          ((List.range (ln.offsets.length - 1)).map (fun i =>
            if ln.offsets.getD (0 + i + 1) 0 - ln.offsets.getD (0 + i) 0 = 0 then (1:Nat)
            else 0)).sum := by
        rw [to_length, length_filter_eq_sum_ite, List.map_map]
        refine congrArg _ (List.map_congr_left (fun i _ => ?_))
        simp
      rw [hzc, ← hrest]
      omega
    | largeList ln =>
      have hparts : List.Chain' (· ≤ ·) ln.offsets ∧ ln.offsets ≠ [] ∧
          ln.offsets.getLastD 0 - ln.offsets.headD 0 = head_len rest ∧
          wf_path rest = true := by
        simp only [wf_path, Bool.and_eq_true, decide_eq_true_eq] at hwf
        exact ⟨(mono_offsets_chain _).mp hwf.1.1.1, hwf.1.1.2, hwf.1.2, hwf.2⟩
      obtain ⟨hch, hne, hcov, hwr⟩ := hparts
      have hlen : 0 < ln.offsets.length := List.length_pos.mpr hne
      obtain ⟨r0, rs, hrest⟩ : ∃ r0 rs, rest = r0 :: rs := by
        cases rest with
        | nil => exact absurd rfl (wf_ne_nil hwr)
        | cons r0 rs => exact ⟨r0, rs, rfl⟩
      simp only [win_count, head_len, Nested.len]
      have hsplit : ∀ i ∈ List.range (ln.offsets.length - 1),
          (if ln.offsets.getD (0 + i + 1) 0 - ln.offsets.getD (0 + i) 0 = 0 then 1
            else win_count rest (ln.offsets.getD (0 + i) 0 - ln.offsets.headD 0)
              (ln.offsets.getD (0 + i + 1) 0 - ln.offsets.getD (0 + i) 0)) =
          win_count rest (ln.offsets.getD (0 + i) 0 - ln.offsets.headD 0)
              (ln.offsets.getD (0 + i + 1) 0 - ln.offsets.getD (0 + i) 0) +
           (if ln.offsets.getD (0 + i + 1) 0 - ln.offsets.getD (0 + i) 0 = 0 then 1
            else 0) := by
        intro i _
        by_cases hz : ln.offsets.getD (0 + i + 1) 0 - ln.offsets.getD (0 + i) 0 = 0
        · rw [if_pos hz, if_pos hz, hz, win_count_zero]
        · rw [if_neg hz, if_neg hz]
          omega
      rw [List.map_congr_left hsplit, sum_map_add,
        win_runs_telescope rest hwr ln.offsets hch (ln.offsets.length - 1) 0 (by omega)]
      have hz0 : ln.offsets.getD 0 0 - ln.offsets.headD 0 = 0 := by
        rw [headD_eq_getD_zero]
        omega
      have hlast : ln.offsets.getD (0 + (ln.offsets.length - 1)) 0 - ln.offsets.getD 0 0 =
          head_len rest := by
        rw [Nat.zero_add, getD_last, ← headD_eq_getD_zero]
        exact hcov
      rw [hz0, hlast, ih hwr, hrest, num_values_cons_largeList]
      have hzc : ((to_length ln.offsets).filter (fun l => l = 0)).length =
          ((List.range (ln.offsets.length - 1)).map (fun i =>
            if ln.offsets.getD (0 + i + 1) 0 - ln.offsets.getD (0 + i) 0 = 0 then (1:Nat)
            else 0)).sum := by
        rw [to_length, length_filter_eq_sum_ite, List.map_map]
        refine congrArg _ (List.map_congr_left (fun i _ => ?_))
        simp
      rw [hzc, ← hrest]
      omega
    | struct v io len =>
      have hparts : len = head_len rest ∧ wf_path rest = true := by
        simp only [wf_path, Bool.and_eq_true, decide_eq_true_eq] at hwf
        exact hwf
      obtain ⟨hcov, hwr⟩ := hparts
      obtain ⟨r0, rs, hrest⟩ : ∃ r0 rs, rest = r0 :: rs := by
        cases rest with
        | nil => exact absurd rfl (wf_ne_nil hwr)
        | cons r0 rs => exact ⟨r0, rs, rfl⟩
      simp only [win_count, head_len, Nested.len]
      rw [hcov, ih hwr, hrest, num_values_cons_struct]
    | fixedSizeList v io w len => simp [wf_path] at hwf

/-- Claim C2 (amended): on well-formed validity-free paths — the path reaches a
`Primitive` leaf, every list node's offsets are monotone and cover exactly the next
node's length, every struct's length equals the next node's length, no node carries
a validity bitmap, there is no `FixedSizeList`, and the outer length is positive —
`calculate_def_levels` and `calculate_rep_levels` both succeed and their outputs
both have length `num_values` (leaf length plus one placeholder per zero-length
inner run). -/
theorem level_lengths_match_num_values (node : Nested) (rest : List Nested)
    (hwf : wf_path (node :: rest) = true)
    (hnv : no_validity (node :: rest) = true)
    (hl : 0 < node.len) :
    ∃ d r, calculate_def_levels (node :: rest) = .ok d ∧
      calculate_rep_levels (node :: rest) = .ok r ∧
      d.length = num_values (node :: rest) ∧ r.length = num_values (node :: rest) := by
  obtain ⟨r, hr, hrl⟩ := rep_len_eq_win (node :: rest) hwf hnv 0 0 0 node.len hl
  refine ⟨def_levels_recursive (node :: rest) 0 0 node.len, r, rfl, hr, ?_, ?_⟩
  · rw [def_len_eq_win _ hwf hnv]
    exact win_eq_num_values _ hwf
  · rw [hrl]
    exact win_eq_num_values _ hwf

/-- Witness for `level_lengths_match_num_values` at the validity-free
list-of-struct-of-list path of the `list_struct_list_1` test: 16 entries on each
side, matching `num_values` = 8 leaf values + 3 outer + 5 inner empty runs. -/
theorem level_lengths_match_num_values_witness :
    ∃ d r, calculate_def_levels [
        .list ⟨true, [0, 2, 2, 5, 8, 8, 11, 11, 12], none⟩,
        .struct none true 12,
        .list ⟨true, [0, 1, 2, 3, 3, 4, 4, 4, 4, 5, 6, 8, 8], none⟩,
        .primitive none true 8] = .ok d ∧
      calculate_rep_levels [
        .list ⟨true, [0, 2, 2, 5, 8, 8, 11, 11, 12], none⟩,
        .struct none true 12,
        .list ⟨true, [0, 1, 2, 3, 3, 4, 4, 4, 4, 5, 6, 8, 8], none⟩,
        .primitive none true 8] = .ok r ∧
      d.length = num_values [
        .list ⟨true, [0, 2, 2, 5, 8, 8, 11, 11, 12], none⟩,
        .struct none true 12,
        .list ⟨true, [0, 1, 2, 3, 3, 4, 4, 4, 4, 5, 6, 8, 8], none⟩,
        .primitive none true 8] ∧
      r.length = num_values [
        .list ⟨true, [0, 2, 2, 5, 8, 8, 11, 11, 12], none⟩,
        .struct none true 12,
        .list ⟨true, [0, 1, 2, 3, 3, 4, 4, 4, 4, 5, 6, 8, 8], none⟩,
        .primitive none true 8] :=
  level_lengths_match_num_values _ _ (by decide) (by decide) (by decide)
theorem lanes_value_succ (b : Nat) (input : List Nat) (i : Nat) :
    lanes_value b input (i + 1) = lanes_value b input i + (input.getD i 0 <<< (i * b)) := by
  simp [lanes_value, List.range_succ]

theorem getD_lt_of_forall {l : List Nat} {b : Nat} (h : ∀ x ∈ l, x < 2 ^ b) (i : Nat) :
    l.getD i 0 < 2 ^ b := by
  rcases Nat.lt_or_ge i l.length with hi | hi
  · rw [List.getD_eq_getElem?_getD, List.getElem?_eq_getElem hi]
    exact h _ (List.getElem_mem hi)
  · rw [List.getD_eq_getElem?_getD, List.getElem?_eq_none hi]
    exact Nat.two_pow_pos b

theorem lanes_value_lt (b : Nat) (input : List Nat) (hval : ∀ x ∈ input, x < 2 ^ b) :
    ∀ i, lanes_value b input i < 2 ^ (i * b) := by
  intro i
  induction i with
  | zero => simp [lanes_value]
  | succ i ih =>
    rw [lanes_value_succ]
    have hin : input.getD i 0 < 2 ^ b := getD_lt_of_forall hval i
    calc lanes_value b input i + input.getD i 0 <<< (i * b)
        < 2 ^ (i * b) + input.getD i 0 * 2 ^ (i * b) := by
          rw [Nat.shiftLeft_eq]; omega
      _ = (input.getD i 0 + 1) * 2 ^ (i * b) := by ring
      _ ≤ 2 ^ b * 2 ^ (i * b) := Nat.mul_le_mul_right _ hin
      _ = 2 ^ ((i + 1) * b) := by rw [← Nat.pow_add]; congr 1; ring

theorem le_bytes_append_shift : ∀ (n k v : Nat),
    le_bytes (n + k) v = le_bytes n v ++ le_bytes k (v >>> (8 * n)) := by
  intro n
  induction n with
  | zero => intro k v; simp [le_bytes]
  | succ n ih =>
    intro k v
    have hs : (v / 256) >>> (8 * n) = v >>> (8 * (n + 1)) := by
      simp only [Nat.shiftRight_eq_div_pow]
      rw [Nat.div_div_eq_div_mul]
      congr 1
      rw [show (256 : Nat) = 2 ^ 8 by norm_num, ← Nat.pow_add]
      congr 1
      omega
    rw [show n + 1 + k = (n + k) + 1 by omega]
    simp only [le_bytes, ih k (v / 256), hs]
    simp

theorem le_bytes_mod : ∀ (n v : Nat), le_bytes n (v % 2 ^ (8 * n)) = le_bytes n v := by
  intro n
  induction n with
  | zero => intro v; simp [le_bytes]
  | succ n ih =>
    intro v
    have hdvd : (256 : Nat) ∣ 2 ^ (8 * (n + 1)) := by
      rw [show (256 : Nat) = 2 ^ 8 by norm_num]
      exact Nat.pow_dvd_pow 2 (by omega)
    have h1 : v % 2 ^ (8 * (n + 1)) % 256 = v % 256 := Nat.mod_mod_of_dvd v hdvd
    have h2 : v % 2 ^ (8 * (n + 1)) / 256 = v / 256 % 2 ^ (8 * n) := by
      rw [show (8 * (n + 1)) = 8 + 8 * n by omega, Nat.pow_add,
          show (2 : Nat) ^ 8 = 256 by norm_num]
      rw [Nat.mod_mul_right_div_self]
    simp only [le_bytes, h1, h2, ih]

theorem le_bytes_congr {n v v' : Nat} (h : v % 2 ^ (8 * n) = v' % 2 ^ (8 * n)) :
    le_bytes n v = le_bytes n v' := by
  rw [← le_bytes_mod n v, h, le_bytes_mod]

theorem bytes_to_nat_le_bytes : ∀ (n v : Nat), bytes_to_nat (le_bytes n v) = v % 2 ^ (8 * n) := by
  intro n
  induction n with
  | zero => intro v; simp [le_bytes, bytes_to_nat, Nat.mod_one]
  | succ n ih =>
    intro v
    rw [le_bytes, bytes_to_nat, ih, Nat.mod_mod_of_dvd v (dvd_refl 256)]
    rw [show 8 * (n + 1) = 8 + 8 * n by omega, Nat.pow_add,
        show (2 : Nat) ^ 8 = 256 by norm_num, Nat.mod_mul]

theorem pow_split (w k : Nat) (hk : k ≤ w) : (2 : Nat) ^ w = 2 ^ (w - k) * 2 ^ k := by
  rw [← Nat.pow_add]
  congr 1
  omega

theorem shiftLeft_mod_pow (c k w : Nat) (hk : k ≤ w) :
    (c <<< k) % 2 ^ w = (c % 2 ^ (w - k)) * 2 ^ k := by
  rw [Nat.shiftLeft_eq, pow_split w k hk, Nat.mul_mod_mul_right]

theorem lor_mul_pow_eq_add (k a reg : Nat) (hreg : reg < 2 ^ k) :
    reg ||| (2 ^ k * a) = reg + 2 ^ k * a := by
  rw [Nat.lor_comm, Nat.add_comm reg (2 ^ k * a)]
  exact (Nat.mul_add_lt_is_or hreg a).symm

theorem add_mul_pow_shiftRight (A B K : Nat) :
    (A + B * 2 ^ K) >>> K = A >>> K + B := by
  simp only [Nat.shiftRight_eq_div_pow]
  rw [Nat.add_mul_div_right _ _ (Nat.two_pow_pos K)]

theorem add_mul_pow_mod (A B : Nat) {m K : Nat} (h : m ≤ K) :
    (A + B * 2 ^ K) % 2 ^ m = A % 2 ^ m := by
  rw [pow_split K m h, ← Nat.mul_assoc, Nat.add_mul_mod_self_right]

theorem mod_pow_shiftRight (x s m : Nat) :
    (x % 2 ^ (s + m)) >>> s = (x >>> s) % 2 ^ m := by
  simp only [Nat.shiftRight_eq_div_pow]
  rw [Nat.pow_add, Nat.mod_mul_right_div_self]

theorem lanes_value_extract (b : Nat) (input : List Nat) (hval : ∀ x ∈ input, x < 2 ^ b) :
    ∀ n i, i < n → (lanes_value b input n >>> (i * b)) % 2 ^ b = input.getD i 0 := by
  intro n
  induction n with
  | zero => omega
  | succ n ih =>
    intro i hi
    rcases Nat.lt_or_ge i n with hin | hin
    · rw [← mod_pow_shiftRight, lanes_value_succ, Nat.shiftLeft_eq,
          add_mul_pow_mod _ _ (by calc i * b + b = (i + 1) * b := by ring
                                    _ ≤ n * b := Nat.mul_le_mul_right b hin),
          mod_pow_shiftRight]
      exact ih i hin
    · have hieq : i = n := by omega
      subst hieq
      rw [lanes_value_succ, Nat.shiftLeft_eq, add_mul_pow_shiftRight]
      have hz : lanes_value b input i >>> (i * b) = 0 := by
        rw [Nat.shiftRight_eq_div_pow]
        exact Nat.div_eq_of_lt (lanes_value_lt b input hval i)
      rw [hz, Nat.zero_add, Nat.mod_eq_of_lt (getD_lt_of_forall hval i)]

theorem lor_mul_pow_eq_add2 (k a reg : Nat) (hreg : reg < 2 ^ k) :
    reg ||| (a * 2 ^ k) = reg + a * 2 ^ k := by
  rw [Nat.mul_comm a (2 ^ k)]
  exact lor_mul_pow_eq_add k a reg hreg

theorem reg_update_eq (w b : Nat) (input : List Nat) (hb : 0 < b) (hbw : b < w)
    (hval : ∀ x ∈ input, x < 2 ^ b) (i : Nat) (st : List Nat × Nat)
    (h2 : 0 < i * b % w → st.2 = lanes_value b input i >>> (w * (i * b / w))) :
    (if 0 < i * b % w then st.2 ||| ((input.getD i 0 <<< (i * b % w)) % 2 ^ w)
     else input.getD i 0)
    = (lanes_value b input (i + 1) >>> (w * (i * b / w))) % 2 ^ w := by
  have hw : 0 < w := by omega
  have hcw : i * b % w < w := Nat.mod_lt _ hw
  have hdm : w * (i * b / w) + i * b % w = i * b := Nat.div_add_mod _ _
  have hin : input.getD i 0 < 2 ^ b := getD_lt_of_forall hval i
  have hS : lanes_value b input i < 2 ^ (i * b) := lanes_value_lt b input hval i
  have hS2 : lanes_value b input (i + 1)
      = lanes_value b input i + input.getD i 0 * 2 ^ (i * b) := by
    rw [lanes_value_succ, Nat.shiftLeft_eq]
  by_cases hc0 : 0 < i * b % w
  · rw [if_pos hc0, h2 hc0]
    have hregb : lanes_value b input i >>> (w * (i * b / w)) < 2 ^ (i * b % w) := by
      rw [Nat.shiftRight_eq_div_pow]
      refine (Nat.div_lt_iff_lt_mul (Nat.two_pow_pos _)).mpr ?hx
      have hpw : (2 : Nat) ^ (i * b % w) * 2 ^ (w * (i * b / w)) = 2 ^ (i * b) := by
        rw [← Nat.pow_add]
        congr 1
        omega
      rw [hpw]
      exact hS
    have hsplit : input.getD i 0 * 2 ^ (i * b)
        = input.getD i 0 * 2 ^ (i * b % w) * 2 ^ (w * (i * b / w)) := by
      rw [Nat.mul_assoc, ← Nat.pow_add]
      congr 2
      omega
    have hshift : lanes_value b input (i + 1) >>> (w * (i * b / w))
        = lanes_value b input i >>> (w * (i * b / w))
          + input.getD i 0 * 2 ^ (i * b % w) := by
      rw [hS2, hsplit, add_mul_pow_shiftRight]
    have hmm : input.getD i 0 * 2 ^ (i * b % w) % 2 ^ w
        = input.getD i 0 % 2 ^ (w - i * b % w) * 2 ^ (i * b % w) := by
      rw [← Nat.shiftLeft_eq]
      exact shiftLeft_mod_pow _ _ _ (le_of_lt hcw)
    have hx1 : input.getD i 0 % 2 ^ (w - i * b % w) < 2 ^ (w - i * b % w) :=
      Nat.mod_lt _ (Nat.two_pow_pos _)
    have hcmax : (2 : Nat) ^ (i * b % w) ≤ 2 ^ w :=
      Nat.pow_le_pow_right (by norm_num) (le_of_lt hcw)
    have hsum : lanes_value b input i >>> (w * (i * b / w))
        + input.getD i 0 % 2 ^ (w - i * b % w) * 2 ^ (i * b % w) < 2 ^ w := by
      have hqp : (2 : Nat) ^ (w - i * b % w) * 2 ^ (i * b % w) = 2 ^ w :=
        (pow_split w (i * b % w) (le_of_lt hcw)).symm
      calc lanes_value b input i >>> (w * (i * b / w))
            + input.getD i 0 % 2 ^ (w - i * b % w) * 2 ^ (i * b % w)
          < 2 ^ (i * b % w)
            + input.getD i 0 % 2 ^ (w - i * b % w) * 2 ^ (i * b % w) := by omega
        _ = (input.getD i 0 % 2 ^ (w - i * b % w) + 1) * 2 ^ (i * b % w) := by ring
        _ ≤ 2 ^ (w - i * b % w) * 2 ^ (i * b % w) := Nat.mul_le_mul_right _ hx1
        _ = 2 ^ w := hqp
    rw [hshift, Nat.add_mod, hmm, Nat.mod_eq_of_lt (lt_of_lt_of_le hregb hcmax),
        Nat.mod_eq_of_lt hsum, shiftLeft_mod_pow _ _ _ (le_of_lt hcw)]
    exact lor_mul_pow_eq_add2 _ _ _ hregb
  · have hQ : w * (i * b / w) = i * b := by omega
    rw [if_neg hc0, hQ, hS2, add_mul_pow_shiftRight]
    have hz : lanes_value b input i >>> (i * b) = 0 := by
      rw [Nat.shiftRight_eq_div_pow]
      exact Nat.div_eq_of_lt hS
    rw [hz, Nat.zero_add,
        Nat.mod_eq_of_lt (lt_of_lt_of_le hin
          (Nat.pow_le_pow_right (by norm_num) (le_of_lt hbw)))]


theorem reg_shift_lt (w b : Nat) (input : List Nat)
    (hval : ∀ x ∈ input, x < 2 ^ b) (i : Nat) :
    lanes_value b input (i + 1) >>> (w * (i * b / w)) < 2 ^ (i * b % w + b) := by
  rw [Nat.shiftRight_eq_div_pow]
  refine (Nat.div_lt_iff_lt_mul (Nat.two_pow_pos _)).mpr ?hx
  have hdm : w * (i * b / w) + i * b % w = i * b := Nat.div_add_mod _ _
  have hib : (i + 1) * b = i * b + b := by ring
  have hpw : (2 : Nat) ^ (i * b % w + b) * 2 ^ (w * (i * b / w)) = 2 ^ ((i + 1) * b) := by
    rw [← Nat.pow_add, hib]
    congr 1
    omega
  rw [hpw]
  exact lanes_value_lt b input hval (i + 1)

theorem out_bytes_stable (w b : Nat) (input : List Nat) (h8 : 8 ∣ w) (i : Nat) :
    le_bytes (i * b / w * (w / 8)) (lanes_value b input (i + 1))
    = le_bytes (i * b / w * (w / 8)) (lanes_value b input i) := by
  apply le_bytes_congr
  have h8q : 8 * (i * b / w * (w / 8)) = w * (i * b / w) := by
    obtain ⟨q, hq⟩ := h8
    subst hq
    rw [Nat.mul_div_cancel_left q (by norm_num)]
    ring
  have hdm : w * (i * b / w) + i * b % w = i * b := Nat.div_add_mod _ _
  rw [h8q, lanes_value_succ, Nat.shiftLeft_eq]
  exact add_mul_pow_mod _ _ (by omega)

theorem out_bytes_flush (w b : Nat) (input : List Nat) (h8 : 8 ∣ w) (i : Nat) :
    le_bytes ((i * b / w + 1) * (w / 8)) (lanes_value b input (i + 1))
    = le_bytes (i * b / w * (w / 8)) (lanes_value b input i)
      ++ le_bytes (w / 8)
          ((lanes_value b input (i + 1) >>> (w * (i * b / w))) % 2 ^ w) := by
  have h8q : 8 * (i * b / w * (w / 8)) = w * (i * b / w) := by
    obtain ⟨q, hq⟩ := h8
    subst hq
    rw [Nat.mul_div_cancel_left q (by norm_num)]
    ring
  have hsplit : (i * b / w + 1) * (w / 8) = i * b / w * (w / 8) + w / 8 := by ring
  rw [hsplit, le_bytes_append_shift, out_bytes_stable w b input h8 i, h8q]
  congr 1
  have h8w : 8 * (w / 8) = w := by
    obtain ⟨q, hq⟩ := h8
    omega
  have hmd : (lanes_value b input (i + 1) >>> (w * (i * b / w))) % 2 ^ w
      = (lanes_value b input (i + 1) >>> (w * (i * b / w))) % 2 ^ (8 * (w / 8)) := by
    rw [h8w]
  rw [hmd, le_bytes_mod]

theorem carry_reg_eq (w b : Nat) (input : List Nat) (hbw : b < w)
    (hval : ∀ x ∈ input, x < 2 ^ b) (i : Nat) :
    input.getD i 0 >>> (w - i * b % w)
    = lanes_value b input (i + 1) >>> (w * (i * b / w + 1)) := by
  have hw : 0 < w := by omega
  have hcw : i * b % w < w := Nat.mod_lt _ hw
  have hdm : w * (i * b / w) + i * b % w = i * b := Nat.div_add_mod _ _
  have hS : lanes_value b input i < 2 ^ (i * b) := lanes_value_lt b input hval i
  have hmoddiv : input.getD i 0 % 2 ^ (w - i * b % w)
      + (input.getD i 0 >>> (w - i * b % w)) * 2 ^ (w - i * b % w)
      = input.getD i 0 := by
    rw [Nat.shiftRight_eq_div_pow]
    exact Nat.mod_add_div' _ _
  have he : (2 : Nat) ^ (w - i * b % w) * 2 ^ (i * b) = 2 ^ (w * (i * b / w + 1)) := by
    rw [← Nat.pow_add]
    congr 1
    have hx : w * (i * b / w + 1) = w * (i * b / w) + w := by ring
    omega
  have hS2 : lanes_value b input (i + 1)
      = (lanes_value b input i + input.getD i 0 % 2 ^ (w - i * b % w) * 2 ^ (i * b))
        + (input.getD i 0 >>> (w - i * b % w)) * 2 ^ (w * (i * b / w + 1)) := by
    rw [lanes_value_succ, Nat.shiftLeft_eq]
    calc lanes_value b input i + input.getD i 0 * 2 ^ (i * b)
        = lanes_value b input i
          + (input.getD i 0 % 2 ^ (w - i * b % w)
             + (input.getD i 0 >>> (w - i * b % w)) * 2 ^ (w - i * b % w))
            * 2 ^ (i * b) := by rw [hmoddiv]
      _ = (lanes_value b input i + input.getD i 0 % 2 ^ (w - i * b % w) * 2 ^ (i * b))
          + (input.getD i 0 >>> (w - i * b % w))
            * (2 ^ (w - i * b % w) * 2 ^ (i * b)) := by ring
      _ = _ := by rw [he]
  have hx1 : input.getD i 0 % 2 ^ (w - i * b % w) < 2 ^ (w - i * b % w) :=
    Nat.mod_lt _ (Nat.two_pow_pos _)
  have hA : lanes_value b input i + input.getD i 0 % 2 ^ (w - i * b % w) * 2 ^ (i * b)
      < 2 ^ (w * (i * b / w + 1)) := by
    calc lanes_value b input i + input.getD i 0 % 2 ^ (w - i * b % w) * 2 ^ (i * b)
        < 2 ^ (i * b) + input.getD i 0 % 2 ^ (w - i * b % w) * 2 ^ (i * b) := by omega
      _ = (input.getD i 0 % 2 ^ (w - i * b % w) + 1) * 2 ^ (i * b) := by ring
      _ ≤ 2 ^ (w - i * b % w) * 2 ^ (i * b) := Nat.mul_le_mul_right _ hx1
      _ = 2 ^ (w * (i * b / w + 1)) := he
  rw [hS2, add_mul_pow_shiftRight]
  have hz : (lanes_value b input i + input.getD i 0 % 2 ^ (w - i * b % w) * 2 ^ (i * b))
      >>> (w * (i * b / w + 1)) = 0 := by
    rw [Nat.shiftRight_eq_div_pow]
    exact Nat.div_eq_of_lt hA
  rw [hz, Nat.zero_add]


theorem pack_step_flush (w b : Nat) (input : List Nat) (st : List Nat × Nat) (i : Nat)
    (hfl : w - i * b % w ≤ b) :
    pack_step w b input st i =
      (st.1 ++ le_bytes (w / 8)
        (if 0 < i * b % w then st.2 ||| ((input.getD i 0 <<< (i * b % w)) % 2 ^ w)
         else input.getD i 0),
       if 0 < w - i * b % w ∧ w - i * b % w < b then input.getD i 0 >>> (w - i * b % w)
       else (if 0 < i * b % w then st.2 ||| ((input.getD i 0 <<< (i * b % w)) % 2 ^ w)
             else input.getD i 0)) := by
  simp only [pack_step]
  rw [if_pos hfl]

theorem pack_step_noflush (w b : Nat) (input : List Nat) (st : List Nat × Nat) (i : Nat)
    (hfl : ¬ (w - i * b % w ≤ b)) :
    pack_step w b input st i =
      (st.1, if 0 < i * b % w then st.2 ||| ((input.getD i 0 <<< (i * b % w)) % 2 ^ w)
             else input.getD i 0) := by
  simp only [pack_step]
  rw [if_neg hfl]

theorem pack_step_inv (w b : Nat) (input : List Nat)
    (h8 : 8 ∣ w) (hb : 0 < b) (hbw : b < w)
    (hval : ∀ x ∈ input, x < 2 ^ b) (i : Nat) (st : List Nat × Nat)
    (h1 : st.1 = le_bytes (i * b / w * (w / 8)) (lanes_value b input i))
    (h2 : 0 < i * b % w → st.2 = lanes_value b input i >>> (w * (i * b / w))) :
    (pack_step w b input st i).1
      = le_bytes ((i + 1) * b / w * (w / 8)) (lanes_value b input (i + 1)) ∧
    (0 < (i + 1) * b % w → (pack_step w b input st i).2
      = lanes_value b input (i + 1) >>> (w * ((i + 1) * b / w))) := by
  have hw : 0 < w := by omega
  have hcw : i * b % w < w := Nat.mod_lt _ hw
  have hdm : w * (i * b / w) + i * b % w = i * b := Nat.div_add_mod _ _
  have hib : (i + 1) * b = i * b + b := by ring
  have hreg := reg_update_eq w b input hb hbw hval i st h2
  by_cases hfl : w - i * b % w ≤ b
  · have he2 : (i + 1) * b = (i * b % w + b - w) + w * (i * b / w + 1) := by
      have hwm1 : w * (i * b / w + 1) = w * (i * b / w) + w := by ring
      omega
    have hm2 : (i + 1) * b / w = i * b / w + 1 := by
      rw [he2, Nat.add_mul_div_left _ _ hw, Nat.div_eq_of_lt (by omega), Nat.zero_add]
    have hc2 : (i + 1) * b % w = i * b % w + b - w := by
      rw [he2, Nat.add_mul_mod_self_left, Nat.mod_eq_of_lt (by omega)]
    rw [pack_step_flush w b input st i hfl]
    constructor
    · show st.1 ++ le_bytes (w / 8) _ = _
      rw [h1, hreg, hm2]
      exact (out_bytes_flush w b input h8 i).symm
    · intro hpos
      rw [hc2] at hpos
      by_cases hcar : 0 < w - i * b % w ∧ w - i * b % w < b
      · show (if 0 < w - i * b % w ∧ w - i * b % w < b then _ else _) = _
        rw [if_pos hcar, hm2]
        exact carry_reg_eq w b input hbw hval i
      · exfalso
        have hp1 : 0 < w - i * b % w := by omega
        have hp2 : ¬ (w - i * b % w < b) := fun hlt => hcar ⟨hp1, hlt⟩
        omega
  · have he3 : (i + 1) * b = (i * b % w + b) + w * (i * b / w) := by omega
    have hm2 : (i + 1) * b / w = i * b / w := by
      rw [he3, Nat.add_mul_div_left _ _ hw, Nat.div_eq_of_lt (by omega), Nat.zero_add]
    have hc2 : (i + 1) * b % w = i * b % w + b := by
      rw [he3, Nat.add_mul_mod_self_left, Nat.mod_eq_of_lt (by omega)]
    rw [pack_step_noflush w b input st i hfl]
    constructor
    · show st.1 = _
      rw [h1, hm2]
      exact (out_bytes_stable w b input h8 i).symm
    · intro hpos
      show (if 0 < i * b % w then _ else _) = _
      rw [hreg, hm2]
      apply Nat.mod_eq_of_lt
      exact lt_of_lt_of_le (reg_shift_lt w b input hval i)
        (Nat.pow_le_pow_right (by norm_num) (by omega))


theorem pack_fold_inv (w b : Nat) (input : List Nat)
    (h8 : 8 ∣ w) (hb : 0 < b) (hbw : b < w)
    (hval : ∀ x ∈ input, x < 2 ^ b) :
    ∀ k,
    ((List.range' 1 k).foldl (pack_step w b input) ([], input.getD 0 0)).1
      = le_bytes ((k + 1) * b / w * (w / 8)) (lanes_value b input (k + 1)) ∧
    (0 < (k + 1) * b % w →
      ((List.range' 1 k).foldl (pack_step w b input) ([], input.getD 0 0)).2
        = lanes_value b input (k + 1) >>> (w * ((k + 1) * b / w))) := by
  intro k
  induction k with
  | zero =>
    have h0 : (0 + 1) * b / w = 0 := by
      rw [Nat.zero_add, Nat.one_mul]
      exact Nat.div_eq_of_lt hbw
    constructor
    · rw [h0, Nat.zero_mul]
      rfl
    · intro _
      rw [h0, Nat.mul_zero, Nat.shiftRight_zero]
      show input.getD 0 0 = _
      have hr1 : List.range 1 = [0] := rfl
      simp [lanes_value, hr1, Nat.zero_mul, Nat.shiftLeft_zero]
  | succ k ih =>
    rw [List.range'_concat, List.foldl_append, List.foldl_cons, List.foldl_nil,
        show 1 + 1 * k = k + 1 from by omega]
    exact pack_step_inv w b input h8 hb hbw hval (k + 1) _ ih.1 ih.2

theorem pack_written_eq (w b : Nat) (input : List Nat)
    (h8 : 8 ∣ w) (hb : 0 < b) (hbw : b < w)
    (hval : ∀ x ∈ input, x < 2 ^ b) :
    pack_written w b input = le_bytes (b * (w / 8)) (lanes_value b input w) := by
  have hw : 0 < w := by omega
  have h1m : (w - 1) * b = w * b - b := by rw [Nat.sub_mul, Nat.one_mul]
  have h2m : w * (b - 1) = w * b - w := by
    rw [Nat.mul_comm w (b - 1), Nat.sub_mul, Nat.one_mul, Nat.mul_comm b w]
  have hle1 : b ≤ w * b := Nat.le_mul_of_pos_left b hw
  have hle2 : w ≤ w * b := Nat.le_mul_of_pos_right w hb
  have he : (w - 1) * b = (w - b) + w * (b - 1) := by omega
  have hdiv : (w - 1) * b / w = b - 1 := by
    rw [he, Nat.add_mul_div_left _ _ hw, Nat.div_eq_of_lt (by omega), Nat.zero_add]
  have hmod : (w - 1) * b % w = w - b := by
    rw [he, Nat.add_mul_mod_self_left, Nat.mod_eq_of_lt (by omega)]
  have hinv := pack_fold_inv w b input h8 hb hbw hval (w - 2)
  rw [show w - 2 + 1 = w - 1 from by omega] at hinv
  obtain ⟨hA, hB⟩ := hinv
  have hreg := reg_update_eq w b input hb hbw hval (w - 1)
      ((List.range' 1 (w - 2)).foldl (pack_step w b input) ([], input.getD 0 0)) hB
  rw [show w - 1 + 1 = w from by omega, hmod, hdiv,
      if_pos (show 0 < w - b from by omega)] at hreg
  have hflush := out_bytes_flush w b input h8 (w - 1)
  rw [show w - 1 + 1 = w from by omega, hdiv,
      show b - 1 + 1 = b from by omega] at hflush
  simp only [pack_written, pack_final]
  rw [if_pos (show w - b > 0 from by omega), hA, hdiv, hreg]
  exact hflush.symm


theorem le_bytes_length : ∀ (n v : Nat), (le_bytes n v).length = n := by
  intro n
  induction n with
  | zero => intro v; rfl
  | succ n ih => intro v; simp [le_bytes, ih]

theorem bytes_to_nat_append : ∀ (l1 l2 : List Nat),
    bytes_to_nat (l1 ++ l2) = bytes_to_nat l1 + bytes_to_nat l2 * 2 ^ (8 * l1.length) := by
  intro l1
  induction l1 with
  | nil => intro l2; simp [bytes_to_nat]
  | cons a l1 ih =>
    intro l2
    have hp : (2 : Nat) ^ (8 * (l1.length + 1)) = 2 ^ (8 * l1.length) * 256 := by
      rw [show 8 * (l1.length + 1) = 8 * l1.length + 8 by ring, Nat.pow_add]
    show a % 256 + 256 * bytes_to_nat (l1 ++ l2)
        = a % 256 + 256 * bytes_to_nat l1 + bytes_to_nat l2 * 2 ^ (8 * (l1.length + 1))
    rw [ih, hp]
    ring

theorem high_bits_ignored (A X : Nat) {s m K : Nat} (h : s + m ≤ K) :
    ((A + X * 2 ^ K) >>> s) % 2 ^ m = (A >>> s) % 2 ^ m := by
  rw [← mod_pow_shiftRight, add_mul_pow_mod _ _ h, mod_pow_shiftRight]

/-- For every bit width strictly below the lane width, the pack template is
lossless: unpacking the bytes it writes (whatever the output buffer's tail held)
returns the input block exactly.  Together with the full-width counterexample this
pins the kernels' defect to exactly `num_bits = lane width`. -/
theorem pack_roundtrip_below_width (w b : Nat) (input output : List Nat)
    (h8 : 8 ∣ w) (hb : 0 < b) (hbw : b < w)
    (hval : ∀ x ∈ input, x < 2 ^ b) (hlen : input.length = w) :
    unpack_lanes w (pack_apply w input output b) b = input := by
  simp only [pack_apply]
  rw [if_neg (show ¬ b = 0 from by omega)]
  rw [pack_written_eq w b input h8 hb hbw hval]
  have h8b : 8 * (b * (w / 8)) = w * b := by
    obtain ⟨q, hq⟩ := h8
    subst hq
    rw [Nat.mul_div_cancel_left q (by norm_num)]
    ring
  have hSlt : lanes_value b input w < 2 ^ (w * b) := lanes_value_lt b input hval w
  simp only [unpack_lanes, bytes_to_nat_append, bytes_to_nat_le_bytes, le_bytes_length,
      h8b, Nat.mod_eq_of_lt hSlt]
  apply List.ext_getElem
  · simp only [List.length_map, List.length_range]
    exact hlen.symm
  · intro i h1g h2g
    simp only [List.getElem_map, List.getElem_range]
    have hiw : i < w := by
      simp only [List.length_map, List.length_range] at h1g
      exact h1g
    have hstep : i * b + b ≤ w * b := by
      calc i * b + b = (i + 1) * b := by ring
        _ ≤ w * b := Nat.mul_le_mul_right b hiw
    rw [high_bits_ignored _ _ hstep, lanes_value_extract b input hval w i hiw,
        List.getD_eq_getElem?_getD, List.getElem?_eq_getElem (by omega),
        Option.getD_some]

/-- The round-trip instantiated at the 32-bit kernel `pack32`. -/
theorem pack32_roundtrip (b : Nat) (input output : List Nat)
    (hb : 0 < b) (hbw : b < 32)
    (hval : ∀ x ∈ input, x < 2 ^ b) (hlen : input.length = 32) :
    unpack_lanes 32 (pack32 input output b) b = input :=
  pack_roundtrip_below_width 32 b input output ⟨4, rfl⟩ hb hbw hval hlen

end PolarsParquet
